import Mathlib

/-!
# Verification of the santa-claus guest library against its specification

This file shallowly embeds the Rust sources of the repository
(`lib/src/keccak.rs`, `lib/src/receipt_trie.rs`, `lib/src/trie_path.rs`,
`lib/src/header_lens.rs`, `lib/src/fee_summary.rs`, `lib/src/lib.rs` and
`program/src/main.rs`) into Lean and settles the specification claims
against the embedding.

Conventions:
* a byte slice `&[u8]` is a `List Nat` whose elements are the byte values;
* machine-integer arithmetic that can wrap is made explicit with `% 2 ^ w`
  (release-mode wrapping semantics);
* fallible code (Rust panics, slice-index aborts, `assert!`, typed errors)
  is `Option`, `none` meaning the guest aborts;
* the Keccak-f[1600] permutation is supplied by the external `tiny_keccak`
  crate, which the spec declares out of scope and assumed conformant.  All
  sponge definitions are therefore parameterised by a state permutation
  `perm : List Nat → List Nat` acting on the 200-byte state view, and the
  reference digest is the standard sponge built from the same `perm`.
-/

set_option maxRecDepth 8000

/-! ## Byte-level helpers -/

/-- Big-endian interpretation of a byte list (the `length = 256*length + b`
loop of `EncodedHeaderLens::read_from` and `u16/u32::from_be_bytes`). -/
def beToNat (l : List Nat) : Nat :=
  l.foldl (fun acc b => 256 * acc + b) 0

/-- Big-endian encoding of `v` into exactly `n` bytes (`to_be_bytes`). -/
def natToBe (n v : Nat) : List Nat :=
  match n with
  | 0 => []
  | m + 1 => natToBe m (v / 256) ++ [v % 256]

theorem natToBe_length (n v : Nat) : (natToBe n v).length = n := by
  induction n generalizing v with
  | zero => rfl
  | succ m ih => simp [natToBe, ih]

theorem beToNat_append (a b : List Nat) :
    beToNat (a ++ b) = beToNat a * 256 ^ b.length + beToNat b := by
  induction b using List.reverseRecOn with
  | nil => simp [beToNat]
  | append_singleton bs x ih =>
    simp only [beToNat, List.foldl_append, List.foldl_cons, List.foldl_nil] at *
    simp [ih, beToNat, List.length_append, pow_succ]
    ring

theorem beToNat_natToBe (n v : Nat) (h : v < 256 ^ n) :
    beToNat (natToBe n v) = v := by
  induction n generalizing v with
  | zero =>
    simp [natToBe, beToNat]
    omega
  | succ m ih =>
    have hv : v / 256 < 256 ^ m := by
      rw [Nat.div_lt_iff_lt_mul (by norm_num)]
      calc v < 256 ^ (m + 1) := h
        _ = 256 ^ m * 256 := by ring
    simp only [natToBe, beToNat_append, ih (v / 256) hv]
    simp [beToNat]
    omega

/-! ## The streaming Keccak-256 sponge (`lib/src/keccak.rs`)

The Rust implementation views the 200-byte state both as `u32` words and as
bytes; the word-level absorb paths (`absorb_aligned`, `absorb_block`) XOR the
little-endian word view, which is byte-for-byte the same operation as the
byte-level loops, so the embedding works uniformly on the byte view. -/

/-- `Keccak256::absorb` iterated over a zip of state bytes and input bytes,
starting at state position 0 (as the `iter_mut().zip(input)` loops do).
`first = true` is the first-block write mode, otherwise XOR. -/
def absorbBytes (first : Bool) : List Nat → List Nat → List Nat
  | s, [] => s
  | [], _ :: _ => []
  | b :: s, x :: xs => (if first then x else Nat.xor b x) :: absorbBytes first s xs

/-- Absorb `input` into `state` starting at byte position `pos`
(`state_bytes[offset..].iter_mut().zip(input)`). -/
def absorbAt (first : Bool) (pos : Nat) (state input : List Nat) : List Nat :=
  state.take pos ++ absorbBytes first (state.drop pos) input

@[simp] theorem absorbBytes_nil (first : Bool) (s : List Nat) :
    absorbBytes first s [] = s := by
  cases s <;> rfl

theorem absorbBytes_length (first : Bool) (s v : List Nat) :
    (absorbBytes first s v).length = s.length := by
  induction s generalizing v with
  | nil => cases v <;> rfl
  | cons b s ih =>
    cases v with
    | nil => rfl
    | cons x xs => simp [absorbBytes, ih]

theorem absorbAt_length (first : Bool) (pos : Nat) (s v : List Nat) :
    (absorbAt first pos s v).length = s.length := by
  simp [absorbAt, absorbBytes_length]
  omega

/-- Write mode overwrites: absorbing `v` in first-block mode over any state
is `v` followed by the untouched state tail (when `v` fits). -/
theorem absorbBytes_true (s v : List Nat) (h : v.length ≤ s.length) :
    absorbBytes true s v = v ++ s.drop v.length := by
  induction s generalizing v with
  | nil =>
    cases v with
    | nil => rfl
    | cons x xs => simp at h
  | cons b s ih =>
    cases v with
    | nil => rfl
    | cons x xs =>
      simp only [List.length_cons] at h
      simp [absorbBytes, ih xs (by omega)]

theorem absorbBytes_getD (first : Bool) (s v : List Nat) (i : Nat) :
    (absorbBytes first s v).getD i 0 =
      if i < v.length ∧ i < s.length then
        (if first then v.getD i 0 else Nat.xor (s.getD i 0) (v.getD i 0))
      else s.getD i 0 := by
  induction s generalizing v i with
  | nil => cases v <;> simp [absorbBytes]
  | cons b s ih =>
    cases v with
    | nil => simp [absorbBytes]
    | cons x xs =>
      cases i with
      | zero => simp [absorbBytes]
      | succ j =>
        simp only [absorbBytes, List.getD_cons_succ, ih, List.length_cons]
        have h2 : (j + 1 < xs.length + 1 ∧ j + 1 < s.length + 1) ↔
            (j < xs.length ∧ j < s.length) := by omega
        rw [if_congr h2 rfl rfl]

/-- The sponge state of `Keccak256`: 200 state bytes (the little-endian byte
view of the 25 64-bit words), the offset within the current rate block, and
the first-block flag. -/
structure Keccak256 where
  state : List Nat
  offset : Nat
  firstBlock : Bool
deriving DecidableEq, Repr

/-- `Keccak256::default()`: zeroed state, offset 0, first-block mode. -/
def Keccak256.default : Keccak256 :=
  ⟨List.replicate 200 0, 0, true⟩

/-- The `while input.len() >= BLOCK_SIZE` loop of `Keccak256::update`:
XOR-absorb and permute full 136-byte blocks, returning the final state and
the remaining partial input.  Structured with fuel so that the definition
reduces in the kernel; any fuel at least `input.length` is exact. -/
def absorbBlocks (perm : List Nat → List Nat) :
    Nat → List Nat → List Nat → List Nat × List Nat
  | 0, st, input => (st, input)
  | fuel + 1, st, input =>
    if 136 ≤ input.length then
      absorbBlocks perm fuel (perm (absorbBytes false st (input.take 136))) (input.drop 136)
    else (st, input)

/-- `Keccak256::update`, translated clause by clause from `keccak.rs`.

Note that the early-return branch for inputs too short to complete the
current block absorbs at state position 0 (the Rust code zips
`state_bytes.iter_mut()` from the start of the state), not at `offset`. -/
def Keccak256.update (perm : List Nat → List Nat) (k : Keccak256)
    (input : List Nat) : Keccak256 :=
  let offset := k.offset
  let rem := 136 - offset
  if input.length < rem then
    { k with
      state := absorbBytes k.firstBlock k.state input
      offset := offset + input.length }
  else
    -- If last block was incomplete, complete first.
    let step1 : Keccak256 × List Nat :=
      if offset ≠ 0 then
        (⟨perm (absorbAt k.firstBlock offset k.state (input.take rem)), 0, false⟩,
          input.drop rem)
      else (k, input)
    let k1 := step1.1
    let input1 := step1.2
    -- First full block is written rather than XORed while in first-block mode.
    let step2 : Keccak256 × List Nat :=
      if k1.firstBlock ∧ 136 ≤ input1.length then
        (⟨perm (absorbBytes true k1.state (input1.take 136)), 0, false⟩,
          input1.drop 136)
      else (k1, input1)
    let k2 := step2.1
    let input2 := step2.2
    -- Absorb remaining full blocks, then XOR the partial tail at position 0.
    let step3 := absorbBlocks perm input2.length k2.state input2
    let st3 := step3.1
    let input3 := step3.2
    ⟨absorbBytes false st3 input3, input3.length, k2.firstBlock⟩

/-- `Keccak256::pad`: in first-block mode zero the state from `offset` to the
rate, then XOR the domain byte `0x01` at `offset` and `0x80` at byte 135. -/
def Keccak256.pad (k : Keccak256) : List Nat :=
  let st :=
    if k.firstBlock then
      k.state.take k.offset ++ List.replicate (136 - k.offset) 0 ++ k.state.drop 136
    else k.state
  let st := st.set k.offset (Nat.xor (st.getD k.offset 0) 0x01)
  st.set 135 (Nat.xor (st.getD 135 0) 0x80)

/-- `Keccak256::finalize_and_reset`: pad, permute, emit the first 32 state
bytes, and reset (zero the capacity bytes `[136, 200)`, clear the offset,
re-enter first-block mode). -/
def Keccak256.finalizeAndReset (perm : List Nat → List Nat) (k : Keccak256) :
    List Nat × Keccak256 :=
  let s := perm k.pad
  (s.take 32, ⟨s.take 136 ++ List.replicate 64 0, 0, true⟩)

/-- Digest produced by a single `update(x); finalize_and_reset(out)` run on
sponge `k`. -/
def Keccak256.oneShot (perm : List Nat → List Nat) (k : Keccak256)
    (x : List Nat) : List Nat :=
  (Keccak256.finalizeAndReset perm (Keccak256.update perm k x)).1

/-! ### Reference Keccak-256 (sponge construction over the same permutation) -/

/-- Keccak pad10*1 with the 0x01 domain byte: the suffix appended to a
message whose length is `r` modulo the 136-byte rate. -/
def padSuffix (r : Nat) : List Nat :=
  if r = 135 then [0x81] else 0x01 :: List.replicate (134 - r) 0 ++ [0x80]

/-- A message padded to a whole number of 136-byte blocks. -/
def keccakPad (x : List Nat) : List Nat :=
  x ++ padSuffix (x.length % 136)

/-- The reference Keccak-256 digest: XOR-absorb every padded block into an
all-zero 200-byte state, permuting after each block, and squeeze the first
32 bytes. -/
def specKeccak (perm : List Nat → List Nat) (x : List Nat) : List Nat :=
  (absorbBlocks perm (x.length + 136) (List.replicate 200 0) (keccakPad x)).1.take 32

/-- A permutation of the 200-byte state view. -/
def PermOK (perm : List Nat → List Nat) : Prop :=
  ∀ s : List Nat, s.length = 200 → (perm s).length = 200

/-- A sponge state from which the next `update` starts a fresh message: at a
block boundary, in first-block mode, with zeroed capacity bytes.  Freshly
constructed sponges and sponges just after `finalize_and_reset` are ready. -/
def Keccak256.Ready (k : Keccak256) : Prop :=
  k.offset = 0 ∧ k.firstBlock = true ∧ k.state.length = 200 ∧
    k.state.drop 136 = List.replicate 64 0

/-! ### Pointwise access lemmas used to reason about state manipulation -/

theorem getD_take0 (l : List Nat) (n i : Nat) :
    (l.take n).getD i 0 = if i < n then l.getD i 0 else 0 := by
  induction l generalizing n i with
  | nil =>
    cases n <;> simp [List.getD_nil]
  | cons b t ih =>
    cases n with
    | zero => simp [List.getD_nil]
    | succ m =>
      cases i with
      | zero => simp
      | succ j =>
        simpa using ih m j

theorem getD_drop0 (l : List Nat) (n i : Nat) :
    (l.drop n).getD i 0 = l.getD (n + i) 0 := by
  induction l generalizing n with
  | nil => simp [List.getD_nil]
  | cons b t ih =>
    cases n with
    | zero => simp
    | succ m => simp [Nat.succ_add, ih m]

theorem getD_replicate0 (n i : Nat) :
    (List.replicate n (0 : Nat)).getD i 0 = 0 := by
  induction n generalizing i with
  | zero => simp [List.getD_nil]
  | succ m ih =>
    cases i with
    | zero => simp [List.replicate_succ]
    | succ j => simp [List.replicate_succ, ih j]

theorem getD_set0 (l : List Nat) (i j v : Nat) :
    (l.set i v).getD j 0 = if i = j ∧ j < l.length then v else l.getD j 0 := by
  induction l generalizing i j with
  | nil => simp [List.getD_nil]
  | cons b t ih =>
    cases i with
    | zero =>
      cases j with
      | zero => simp
      | succ j' => simp [List.set]
    | succ i' =>
      cases j with
      | zero => simp [List.set]
      | succ j' =>
        simp only [List.set, List.getD_cons_succ, ih, List.length_cons]
        have h2 : (i' + 1 = j' + 1 ∧ j' + 1 < t.length + 1) ↔
            (i' = j' ∧ j' < t.length) := by omega
        rw [if_congr h2 rfl rfl]

theorem eq_of_getD (a b : List Nat) (hl : a.length = b.length)
    (h : ∀ i, i < a.length → a.getD i 0 = b.getD i 0) : a = b := by
  apply List.ext_getElem hl
  intro i h1 h2
  have := h i h1
  rwa [List.getD_eq_getElem a 0 h1, List.getD_eq_getElem b 0 h2] at this

theorem getD_append0 (a b : List Nat) (i : Nat) :
    (a ++ b).getD i 0 = if i < a.length then a.getD i 0 else b.getD (i - a.length) 0 := by
  by_cases h : i < a.length
  · rw [List.getD_append a b 0 i h, if_pos h]
  · rw [List.getD_append_right a b 0 i (by omega), if_neg h]

/-! ### Properties of the block-absorbing loop -/

theorem absorbBlocks_fuel (perm : List Nat → List Nat) (f1 f2 : Nat)
    (st m : List Nat) (h1 : m.length ≤ f1) (h2 : m.length ≤ f2) :
    absorbBlocks perm f1 st m = absorbBlocks perm f2 st m := by
  induction f1 generalizing f2 st m with
  | zero =>
    have hm : m.length = 0 := Nat.le_zero.mp h1
    cases f2 with
    | zero => rfl
    | succ g => simp [absorbBlocks, hm]
  | succ f ih =>
    cases f2 with
    | zero =>
      have hm : m.length = 0 := Nat.le_zero.mp h2
      simp [absorbBlocks, hm]
    | succ g =>
      simp only [absorbBlocks]
      by_cases hc : 136 ≤ m.length
      · simp only [if_pos hc]
        exact ih _ _ _ (by simp [List.length_drop]; omega)
          (by simp [List.length_drop]; omega)
      · simp [if_neg hc]

theorem absorbBlocks_state_length (perm : List Nat → List Nat)
    (hperm : PermOK perm) (f : Nat) :
    ∀ st m : List Nat, st.length = 200 →
      (absorbBlocks perm f st m).1.length = 200 := by
  induction f with
  | zero => intro st m h; exact h
  | succ g ih =>
    intro st m h
    simp only [absorbBlocks]
    by_cases hc : 136 ≤ m.length
    · simp only [if_pos hc]
      exact ih _ _ (hperm _ (by rw [absorbBytes_length]; exact h))
    · simp [if_neg hc, h]

theorem absorbBlocks_tail_lt (perm : List Nat → List Nat) (f : Nat) :
    ∀ st m : List Nat, m.length ≤ f →
      (absorbBlocks perm f st m).2.length < 136 := by
  induction f with
  | zero =>
    intro st m h
    have : m.length = 0 := Nat.le_zero.mp h
    simpa [absorbBlocks] using by omega
  | succ g ih =>
    intro st m h
    simp only [absorbBlocks]
    by_cases hc : 136 ≤ m.length
    · simp only [if_pos hc]
      exact ih _ _ (by simp [List.length_drop]; omega)
    · simp only [if_neg hc]
      omega

theorem absorbBlocks_nil_input (perm : List Nat → List Nat) (f : Nat)
    (st : List Nat) : absorbBlocks perm f st [] = (st, []) := by
  cases f <;> simp [absorbBlocks]

theorem absorbBlocks_single (perm : List Nat → List Nat) (f : Nat)
    (st P : List Nat) (hP : P.length = 136) (hf : 1 ≤ f) :
    absorbBlocks perm f st P = (perm (absorbBytes false st P), []) := by
  cases f with
  | zero => omega
  | succ g =>
    simp [absorbBlocks, hP, List.take_of_length_le (le_of_eq hP),
      List.drop_of_length_le (le_of_eq hP), absorbBlocks_nil_input]

/-! ### Padding lemmas -/

theorem padSuffix_length (r : Nat) (h : r < 136) :
    (padSuffix r).length = 136 - r := by
  by_cases hr : r = 135
  · simp [padSuffix, hr]
  · simp [padSuffix, hr]
    omega

theorem keccakPad_length_lt (x : List Nat) (h : x.length < 136) :
    (keccakPad x).length = 136 := by
  unfold keccakPad
  rw [List.length_append, Nat.mod_eq_of_lt h, padSuffix_length _ h]
  omega

theorem keccakPad_take136 (x : List Nat) (h : 136 ≤ x.length) :
    (keccakPad x).take 136 = x.take 136 :=
  List.take_append_of_le_length h

theorem keccakPad_drop136 (x : List Nat) (h : 136 ≤ x.length) :
    (keccakPad x).drop 136 = keccakPad (x.drop 136) := by
  unfold keccakPad
  rw [List.drop_append_of_le_length h]
  congr 1
  · congr 1
    rw [List.length_drop]
    conv_lhs => rw [show x.length = (x.length - 136) + 136 by omega]
    rw [Nat.add_mod_right]

theorem keccakPad_getD (y : List Nat) (hy : y.length < 136) (i : Nat) :
    (keccakPad y).getD i 0 =
      if i < y.length then y.getD i 0
      else if i = 135 ∧ y.length = 135 then 0x81
      else if i = y.length then 0x01
      else if i = 135 then 0x80
      else 0 := by
  simp only [keccakPad, padSuffix, Nat.mod_eq_of_lt hy]
  by_cases hr : y.length = 135
  · rw [if_pos hr, getD_append0]
    by_cases h1 : i < y.length
    · rw [if_pos h1, if_pos h1]
    · rw [if_neg h1, if_neg h1]
      by_cases h2 : i = 135
      · rw [if_pos ⟨h2, hr⟩]
        have h3 : i - y.length = 0 := by omega
        rw [h3]
        rfl
      · rw [if_neg (by omega : ¬(i = 135 ∧ y.length = 135)),
          if_neg (by omega : ¬i = y.length), if_neg h2]
        rw [List.getD_eq_default _ _ (by simp; omega)]
  · rw [if_neg hr, getD_append0]
    by_cases h1 : i < y.length
    · rw [if_pos h1, if_pos h1]
    · rw [if_neg h1, if_neg h1, if_neg (by omega : ¬(i = 135 ∧ y.length = 135))]
      by_cases h2 : i = y.length
      · rw [if_pos h2]
        have h3 : i - y.length = 0 := by omega
        rw [h3]
        rfl
      · rw [if_neg h2]
        obtain ⟨j, hj⟩ : ∃ j, i - y.length = j + 1 := ⟨i - y.length - 1, by omega⟩
        rw [hj, getD_append0]
        by_cases h4 : i = 135
        · rw [if_neg (show ¬j + 1 < (1 :: List.replicate (134 - y.length) (0 : Nat)).length
            by simp; omega), if_pos h4]
          have h6 : j + 1 - (1 :: List.replicate (134 - y.length) (0 : Nat)).length = 0 := by
            simp
            omega
          rw [h6]
          rfl
        · rw [if_neg h4]
          by_cases h5 : j + 1 < (1 :: List.replicate (134 - y.length) (0 : Nat)).length
          · rw [if_pos h5, List.getD_cons_succ, getD_replicate0]
          · rw [if_neg h5, List.getD_eq_default _ _ (by simp at h5 ⊢; omega)]

theorem nat_zero_xor (x : Nat) : Nat.xor 0 x = x :=
  Nat.zero_xor x

theorem nat_xor_zero (x : Nat) : Nat.xor x 0 = x :=
  Nat.xor_zero x

theorem xor_one_then_128 (a : Nat) :
    Nat.xor (Nat.xor a 1) 128 = Nat.xor a 129 := by
  show a ^^^ 1 ^^^ 128 = a ^^^ 129
  rw [Nat.xor_assoc]
  congr 1

theorem absorbBytes_false_zero (v : List Nat) (n : Nat) (h : v.length ≤ n) :
    absorbBytes false (List.replicate n 0) v =
      v ++ List.replicate (n - v.length) 0 := by
  induction v generalizing n with
  | nil => simp
  | cons x xs ih =>
    cases n with
    | zero => simp at h
    | succ m =>
      simp only [List.length_cons] at h
      simp [List.replicate_succ, absorbBytes, nat_zero_xor, ih m (by omega)]

theorem pad_false (st : List Nat) (off : Nat) :
    Keccak256.pad ⟨st, off, false⟩ =
      (st.set off (Nat.xor (st.getD off 0) 0x01)).set 135
        (Nat.xor ((st.set off (Nat.xor (st.getD off 0) 0x01)).getD 135 0) 0x80) :=
  rfl

theorem pad_true (st : List Nat) (off : Nat) :
    Keccak256.pad ⟨st, off, true⟩ =
      ((st.take off ++ List.replicate (136 - off) 0 ++ st.drop 136).set off
          (Nat.xor ((st.take off ++ List.replicate (136 - off) 0 ++
            st.drop 136).getD off 0) 0x01)).set 135
        (Nat.xor (((st.take off ++ List.replicate (136 - off) 0 ++
            st.drop 136).set off
          (Nat.xor ((st.take off ++ List.replicate (136 - off) 0 ++
            st.drop 136).getD off 0) 0x01)).getD 135 0) 0x80) :=
  rfl

/-- Finalise-padding after XOR-absorbing a partial tail `y` into a
post-first-block state equals XOR-absorbing the whole padded final block. -/
theorem pad_absorb_tail (st y : List Nat) (hst : st.length = 200)
    (hy : y.length < 136) :
    Keccak256.pad ⟨absorbBytes false st y, y.length, false⟩ =
      absorbBytes false st (keccakPad y) := by
  have hP : (keccakPad y).length = 136 := keccakPad_length_lt y hy
  have hA : (absorbBytes false st y).length = 200 := by
    rw [absorbBytes_length, hst]
  have hAget : ∀ j, (absorbBytes false st y).getD j 0 =
      if j < y.length then Nat.xor (st.getD j 0) (y.getD j 0)
      else st.getD j 0 := by
    intro j
    rw [absorbBytes_getD, hst]
    exact if_congr (by omega) rfl rfl
  apply eq_of_getD
  · rw [pad_false]
    simp [absorbBytes_length, hst]
  · intro i hi
    rw [pad_false] at hi ⊢
    simp only [List.length_set, hA] at hi
    have hBget : ∀ j, ((absorbBytes false st y).set y.length
        (Nat.xor ((absorbBytes false st y).getD y.length 0) 0x01)).getD j 0 =
        if j = y.length then Nat.xor (st.getD y.length 0) 0x01
        else (absorbBytes false st y).getD j 0 := by
      intro j
      rw [getD_set0, hA]
      by_cases hj : j = y.length
      · rw [if_pos (show y.length = j ∧ j < 200 by omega), if_pos hj,
          hAget y.length, if_neg (show ¬y.length < y.length by omega)]
      · rw [if_neg (show ¬(y.length = j ∧ j < 200) by omega), if_neg hj]
    have hRHS : (absorbBytes false st (keccakPad y)).getD i 0 =
        if i < 136 then
          Nat.xor (st.getD i 0)
            (if i < y.length then y.getD i 0
             else if i = 135 ∧ y.length = 135 then 0x81
             else if i = y.length then 0x01
             else if i = 135 then 0x80
             else 0)
        else st.getD i 0 := by
      rw [absorbBytes_getD, hst, hP, keccakPad_getD y hy i]
      exact if_congr (by omega) rfl rfl
    rw [hRHS, getD_set0, List.length_set, hA]
    by_cases h135 : i = 135
    · subst h135
      rw [if_pos (show (135 : Nat) = 135 ∧ (135 : Nat) < 200 by omega), hBget 135,
        if_pos (show (135 : Nat) < 136 by omega)]
      by_cases hyl : y.length = 135
      · rw [if_pos hyl.symm,
          if_neg (show ¬(135 : Nat) < y.length by omega),
          if_pos (show (135 : Nat) = 135 ∧ y.length = 135 from ⟨rfl, hyl⟩),
          hyl, xor_one_then_128]
      · rw [if_neg (fun h => hyl h.symm), hAget 135,
          if_neg (show ¬(135 : Nat) < y.length by omega),
          if_neg (show ¬(135 : Nat) < y.length by omega),
          if_neg (show ¬((135 : Nat) = 135 ∧ y.length = 135) by simp [hyl]),
          if_neg (show (135 : Nat) ≠ y.length from fun h => hyl h.symm),
          if_pos rfl]
    · rw [if_neg (show ¬((135 : Nat) = i ∧ i < 200) by omega), hBget i]
      by_cases hyi : i = y.length
      · rw [if_pos hyi, if_pos (show i < 136 by omega),
          if_neg (show ¬i < y.length by omega),
          if_neg (show ¬(i = 135 ∧ y.length = 135) by omega),
          if_pos hyi, hyi]
      · rw [if_neg hyi, hAget i]
        by_cases hlt : i < y.length
        · rw [if_pos hlt, if_pos (show i < 136 by omega), if_pos hlt]
        · rw [if_neg hlt]
          by_cases h136 : i < 136
          · rw [if_pos h136, if_neg hlt,
              if_neg (show ¬(i = 135 ∧ y.length = 135) by omega),
              if_neg hyi, if_neg h135, nat_xor_zero]
          · rw [if_neg h136]

/-- First-block padding after write-absorbing a short message `x` into a
ready state yields exactly the padded message block over zeroed capacity. -/
theorem pad_absorb_first (k : Keccak256) (x : List Nat) (hk : k.Ready)
    (hx : x.length < 136) :
    Keccak256.pad ⟨absorbBytes true k.state x, x.length, true⟩ =
      keccakPad x ++ List.replicate 64 0 := by
  obtain ⟨-, -, hlen, hcap⟩ := hk
  have hP : (keccakPad x).length = 136 := keccakPad_length_lt x hx
  have hzero : (absorbBytes true k.state x).take x.length ++
      List.replicate (136 - x.length) 0 ++
      (absorbBytes true k.state x).drop 136 =
      x ++ List.replicate (136 - x.length) 0 ++ List.replicate 64 0 := by
    rw [absorbBytes_true _ _ (by omega : x.length ≤ k.state.length)]
    congr 1
    · congr 1
      exact List.take_left x _
    · rw [List.drop_append_eq_append_drop,
        List.drop_of_length_le (by omega : x.length ≤ 136), List.nil_append,
        List.drop_drop, (by omega : x.length + (136 - x.length) = 136), hcap]
  have hblen : (x ++ List.replicate (136 - x.length) 0 ++
      List.replicate 64 0).length = 200 := by
    simp only [List.length_append, List.length_replicate]
    omega
  have hbase : ∀ j, (x ++ List.replicate (136 - x.length) 0 ++
      List.replicate 64 0).getD j 0 =
      if j < x.length then x.getD j 0 else 0 := by
    intro j
    rw [List.append_assoc, getD_append0]
    by_cases hj : j < x.length
    · rw [if_pos hj, if_pos hj]
    · rw [if_neg hj, if_neg hj, getD_append0]
      by_cases h2 : j - x.length < (List.replicate (136 - x.length) (0 : Nat)).length
      · rw [if_pos h2, getD_replicate0]
      · rw [if_neg h2, getD_replicate0]
  have hRHS : ∀ j, (keccakPad x ++ List.replicate 64 0).getD j 0 =
      if j < 136 then (keccakPad x).getD j 0 else 0 := by
    intro j
    rw [getD_append0, hP]
    by_cases h : j < 136
    · rw [if_pos h, if_pos h]
    · rw [if_neg h, if_neg h, getD_replicate0]
  have hBget : ∀ j, ((x ++ List.replicate (136 - x.length) 0 ++
      List.replicate 64 0).set x.length
        (Nat.xor ((x ++ List.replicate (136 - x.length) 0 ++
          List.replicate 64 0).getD x.length 0) 0x01)).getD j 0 =
      if j = x.length then 1
      else if j < x.length then x.getD j 0 else 0 := by
    intro j
    rw [getD_set0, hblen, hbase x.length,
      if_neg (show ¬x.length < x.length by omega),
      (by decide : Nat.xor 0 0x01 = 1)]
    by_cases hj : j = x.length
    · rw [if_pos (show x.length = j ∧ j < 200 by omega), if_pos hj]
    · rw [if_neg (show ¬(x.length = j ∧ j < 200) from fun h => hj h.1.symm),
        if_neg hj, hbase j]
  apply eq_of_getD
  · rw [pad_true, hzero]
    simp only [List.length_set, hblen, hP, List.length_append,
      List.length_replicate]
  · intro i hi
    rw [pad_true, hzero] at hi ⊢
    simp only [List.length_set, hblen] at hi
    rw [hRHS i, getD_set0, List.length_set, hblen]
    by_cases h135 : i = 135
    · subst h135
      rw [if_pos (show (135 : Nat) = 135 ∧ (135 : Nat) < 200 by omega),
        hBget 135, if_pos (show (135 : Nat) < 136 by omega),
        keccakPad_getD x hx 135]
      by_cases hyl : x.length = 135
      · rw [if_pos hyl.symm, if_neg (show ¬(135 : Nat) < x.length by omega),
          if_pos (show (135 : Nat) = 135 ∧ x.length = 135 from ⟨rfl, hyl⟩)]
        decide
      · rw [if_neg (fun h => hyl h.symm),
          if_neg (show ¬(135 : Nat) < x.length by omega),
          if_neg (show ¬(135 : Nat) < x.length by omega),
          if_neg (show ¬((135 : Nat) = 135 ∧ x.length = 135) by simp [hyl]),
          if_neg (show (135 : Nat) ≠ x.length from fun h => hyl h.symm),
          if_pos rfl]
        decide
    · rw [if_neg (fun h => h135 h.1.symm), hBget i]
      by_cases h136 : i < 136
      · rw [if_pos h136, keccakPad_getD x hx i]
        by_cases hyi : i = x.length
        · rw [if_pos hyi, if_neg (show ¬i < x.length by omega),
            if_neg (show ¬(i = 135 ∧ x.length = 135) by omega), if_pos hyi]
        · rw [if_neg hyi]
          by_cases hlt : i < x.length
          · rw [if_pos hlt, if_pos hlt]
          · rw [if_neg hlt, if_neg hlt,
              if_neg (show ¬(i = 135 ∧ x.length = 135) by omega),
              if_neg hyi, if_neg h135]
      · rw [if_neg h136, if_neg (show i ≠ x.length by omega),
          if_neg (show ¬i < x.length by omega)]

theorem absorbBlocks_stop (perm : List Nat → List Nat) (f : Nat)
    (st m : List Nat) (hm : ¬136 ≤ m.length) :
    absorbBlocks perm f st m = (st, m) := by
  cases f with
  | zero => rfl
  | succ g => simp [absorbBlocks, hm]

theorem absorbBlocks_peel (perm : List Nat → List Nat) (f : Nat)
    (st m : List Nat) (hm : 136 ≤ m.length) (hf : m.length ≤ f) :
    absorbBlocks perm f st m =
      absorbBlocks perm (m.drop 136).length
        (perm (absorbBytes false st (m.take 136))) (m.drop 136) := by
  rw [absorbBlocks_fuel perm f m.length st m hf le_rfl]
  obtain ⟨g, hg⟩ : ∃ g, m.length = g + 1 := ⟨m.length - 1, by omega⟩
  rw [hg]
  simp only [absorbBlocks, if_pos hm]
  refine absorbBlocks_fuel perm g (m.drop 136).length _ (m.drop 136) ?_ le_rfl
  rw [List.length_drop]
  omega

theorem keccakPad_length_le (z : List Nat) :
    (keccakPad z).length ≤ z.length + 136 := by
  unfold keccakPad
  rw [List.length_append, padSuffix_length _ (Nat.mod_lt _ (by norm_num))]
  omega

theorem keccakPad_length_ge (z : List Nat) :
    z.length + 1 ≤ (keccakPad z).length := by
  unfold keccakPad
  rw [List.length_append, padSuffix_length _ (Nat.mod_lt _ (by norm_num))]
  have := Nat.mod_lt z.length (show 0 < 136 by norm_num)
  omega

/-- Core correspondence: running the tail of `update` (full-block loop plus
partial XOR tail) and then `finalize_and_reset` from any 200-byte state in
non-first-block mode produces the reference sponge applied to the padded
remaining message from that state. -/
theorem digest_from_blocks (perm : List Nat → List Nat) (hperm : PermOK perm) :
    ∀ n (y st : List Nat), y.length ≤ n → st.length = 200 →
      (Keccak256.finalizeAndReset perm
        ⟨absorbBytes false (absorbBlocks perm y.length st y).1
            (absorbBlocks perm y.length st y).2,
          (absorbBlocks perm y.length st y).2.length, false⟩).1 =
      (absorbBlocks perm (y.length + 136) st (keccakPad y)).1.take 32 := by
  intro n
  induction n using Nat.strong_induction_on with
  | _ n ih =>
    intro y st hyn hst
    by_cases hy : 136 ≤ y.length
    · -- peel one full block from both sides
      have htake : (y.take 136).length = 136 := by
        rw [List.length_take]
        omega
      have hst2 : (perm (absorbBytes false st (y.take 136))).length = 200 :=
        hperm _ (by rw [absorbBytes_length, hst])
      have hdroplt : (y.drop 136).length < n := by
        rw [List.length_drop]
        omega
      rw [absorbBlocks_peel perm y.length st y hy le_rfl,
        absorbBlocks_peel perm (y.length + 136) st (keccakPad y)
          (le_trans hy (by have := keccakPad_length_ge y; omega))
          (keccakPad_length_le y),
        keccakPad_take136 y hy, keccakPad_drop136 y hy]
      rw [ih (y.drop 136).length hdroplt (y.drop 136) _ le_rfl hst2]
      rw [absorbBlocks_fuel perm ((y.drop 136).length + 136)
        (keccakPad (y.drop 136)).length
        (perm (absorbBytes false st (y.take 136))) (keccakPad (y.drop 136))
        (keccakPad_length_le (y.drop 136)) le_rfl]
    · -- final partial block
      have hylt : y.length < 136 := by omega
      rw [absorbBlocks_stop perm y.length st y hy]
      show (perm (Keccak256.pad ⟨absorbBytes false st y, y.length, false⟩)).take 32 =
        (absorbBlocks perm (y.length + 136) st (keccakPad y)).1.take 32
      rw [pad_absorb_tail st y hst hylt,
        absorbBlocks_single perm (y.length + 136) st (keccakPad y)
          (keccakPad_length_lt y hylt) (by omega)]

/-- On a ready sponge, `update` with a short input takes the partial-absorb
early return (write mode, position 0 — which is also the current offset). -/
theorem update_ready_small (perm : List Nat → List Nat) (k : Keccak256)
    (x : List Nat) (hk : k.Ready) (hx : x.length < 136) :
    Keccak256.update perm k x = ⟨absorbBytes true k.state x, x.length, true⟩ := by
  obtain ⟨ho, hfb, -, -⟩ := hk
  simp only [Keccak256.update, ho, hfb, Nat.sub_zero, Nat.zero_add, if_pos hx]

/-- On a ready sponge, `update` with a block-sized-or-larger input writes the
first block, then loops XOR-absorbing full blocks and XORs the tail. -/
theorem update_ready_large (perm : List Nat → List Nat) (k : Keccak256)
    (x : List Nat) (hk : k.Ready) (hx : 136 ≤ x.length) :
    Keccak256.update perm k x =
      ⟨absorbBytes false
          (absorbBlocks perm (x.drop 136).length
            (perm (absorbBytes true k.state (x.take 136))) (x.drop 136)).1
          (absorbBlocks perm (x.drop 136).length
            (perm (absorbBytes true k.state (x.take 136))) (x.drop 136)).2,
        (absorbBlocks perm (x.drop 136).length
          (perm (absorbBytes true k.state (x.take 136))) (x.drop 136)).2.length,
        false⟩ := by
  obtain ⟨ho, hfb, -, -⟩ := hk
  simp only [Keccak256.update, ho, hfb, Nat.sub_zero,
    if_neg (show ¬x.length < 136 by omega),
    if_neg (show ¬(0 : Nat) ≠ 0 from fun h => h rfl),
    if_pos (show (true = true) ∧ 136 ≤ x.length from ⟨rfl, hx⟩),
    if_pos (show True ∧ 136 ≤ x.length from ⟨trivial, hx⟩)]

theorem ready_default : Keccak256.default.Ready := by
  refine ⟨rfl, rfl, by simp [Keccak256.default], ?_⟩
  show (List.replicate 200 0).drop 136 = List.replicate 64 0
  decide

/-- `update(x); finalize_and_reset` on a ready sponge computes the reference
Keccak digest of `x` (C3's conformance for a single absorb call). -/
theorem oneShot_spec (perm : List Nat → List Nat) (hperm : PermOK perm)
    (k : Keccak256) (hk : k.Ready) (x : List Nat) :
    Keccak256.oneShot perm k x = specKeccak perm x := by
  obtain ⟨ho, hfb, hlen, hcap⟩ := hk
  by_cases hx : x.length < 136
  · rw [Keccak256.oneShot, update_ready_small perm k x ⟨ho, hfb, hlen, hcap⟩ hx]
    show (perm (Keccak256.pad ⟨absorbBytes true k.state x, x.length, true⟩)).take 32 =
      specKeccak perm x
    rw [pad_absorb_first k x ⟨ho, hfb, hlen, hcap⟩ hx, specKeccak,
      absorbBlocks_single perm (x.length + 136) (List.replicate 200 0)
        (keccakPad x) (keccakPad_length_lt x hx) (by omega),
      absorbBytes_false_zero (keccakPad x) 200
        (by rw [keccakPad_length_lt x hx]; omega),
      keccakPad_length_lt x hx]
  · have hx' : 136 ≤ x.length := by omega
    rw [Keccak256.oneShot, update_ready_large perm k x ⟨ho, hfb, hlen, hcap⟩ hx']
    have hst2 : (perm (absorbBytes true k.state (x.take 136))).length = 200 :=
      hperm _ (by rw [absorbBytes_length, hlen])
    rw [digest_from_blocks perm hperm (x.drop 136).length (x.drop 136) _
      le_rfl hst2]
    -- identify the first-block write with the reference first absorb
    have hfirst : absorbBytes true k.state (x.take 136) =
        absorbBytes false (List.replicate 200 0) ((keccakPad x).take 136) := by
      rw [keccakPad_take136 x hx',
        absorbBytes_true k.state (x.take 136)
          (by rw [List.length_take]; omega),
        absorbBytes_false_zero (x.take 136) 200
          (by rw [List.length_take]; omega)]
      have h1 : (x.take 136).length = 136 := by
        rw [List.length_take]
        omega
      rw [h1, hcap]
    rw [specKeccak,
      absorbBlocks_peel perm (x.length + 136) (List.replicate 200 0)
        (keccakPad x)
        (by have := keccakPad_length_ge x; omega) (keccakPad_length_le x),
      keccakPad_drop136 x hx', ← hfirst]
    rw [absorbBlocks_fuel perm (keccakPad (x.drop 136)).length
      ((x.drop 136).length + 136)
      (perm (absorbBytes true k.state (x.take 136))) (keccakPad (x.drop 136))
      le_rfl (keccakPad_length_le (x.drop 136))]

/-- The sponge returned by `finalize_and_reset` is ready again. -/
theorem finalize_ready (perm : List Nat → List Nat) (hperm : PermOK perm)
    (k : Keccak256) (hpl : k.pad.length = 200) :
    ((Keccak256.finalizeAndReset perm k).2).Ready := by
  have hp : (perm k.pad).length = 200 := hperm _ hpl
  refine ⟨rfl, rfl, ?_, ?_⟩
  · simp only [Keccak256.finalizeAndReset, List.length_append,
      List.length_take, List.length_replicate, hp]
    omega
  · show ((perm k.pad).take 136 ++ List.replicate 64 0).drop 136 =
      List.replicate 64 0
    rw [List.drop_append_eq_append_drop,
      List.drop_of_length_le (by rw [List.length_take, hp]; omega)]
    simp [List.length_take, hp]

theorem pad_length (k : Keccak256) (h : k.state.length = 200)
    (ho : k.offset ≤ 136) : k.pad.length = 200 := by
  obtain ⟨st, off, fb⟩ := k
  cases fb
  · simp only [Keccak256.pad] at *
    simp [List.length_set, h]
  · simp only [Keccak256.pad] at *
    simp [List.length_set, List.length_append, List.length_take,
      List.length_replicate, List.length_drop, h]
    omega

theorem update_state_length (perm : List Nat → List Nat) (hperm : PermOK perm)
    (k : Keccak256) (x : List Nat) (hk : k.Ready) :
    (Keccak256.update perm k x).state.length = 200 := by
  by_cases hx : x.length < 136
  · rw [update_ready_small perm k x hk hx]
    show (absorbBytes true k.state x).length = 200
    rw [absorbBytes_length]
    exact hk.2.2.1
  · rw [update_ready_large perm k x hk (by omega)]
    show (absorbBytes false _ _).length = 200
    rw [absorbBytes_length]
    exact absorbBlocks_state_length perm hperm _ _ _
      (hperm _ (by rw [absorbBytes_length]; exact hk.2.2.1))

theorem update_offset_le (perm : List Nat → List Nat) (k : Keccak256)
    (x : List Nat) (hk : k.Ready) :
    (Keccak256.update perm k x).offset ≤ 136 := by
  by_cases hx : x.length < 136
  · rw [update_ready_small perm k x hk hx]
    show x.length ≤ 136
    omega
  · rw [update_ready_large perm k x hk (by omega)]
    show (absorbBlocks perm (x.drop 136).length _ (x.drop 136)).2.length ≤ 136
    have := absorbBlocks_tail_lt perm (x.drop 136).length
      (perm (absorbBytes true k.state (x.take 136))) (x.drop 136) le_rfl
    omega

/-- The sponge after a full `update; finalize_and_reset` round on a ready
sponge is ready again. -/
theorem round_ready (perm : List Nat → List Nat) (hperm : PermOK perm)
    (k : Keccak256) (hk : k.Ready) (x : List Nat) :
    ((Keccak256.finalizeAndReset perm (Keccak256.update perm k x)).2).Ready :=
  finalize_ready perm hperm _
    (pad_length _ (update_state_length perm hperm k x hk)
      (update_offset_le perm k x hk))

/-- **C3.** For every byte string `x` — on a freshly constructed `Keccak256`,
or on one on which `finalize_and_reset` has just completed — a single call
`update(x)` followed by `finalize_and_reset` produces the reference
Keccak-256 digest of `x` (the standard sponge over the same permutation);
in particular `K.update(x); K.finalize_and_reset(); K.update(y);
K.finalize_and_reset()` ends with the digest of `y` alone. -/
theorem keccak_oneShot_and_reset_conformance (perm : List Nat → List Nat)
    (hperm : PermOK perm) (x y : List Nat) :
    Keccak256.oneShot perm Keccak256.default x = specKeccak perm x ∧
    Keccak256.oneShot perm
      ((Keccak256.finalizeAndReset perm
        (Keccak256.update perm Keccak256.default x)).2) y = specKeccak perm y :=
  ⟨oneShot_spec perm hperm _ ready_default x,
   oneShot_spec perm hperm _ (round_ready perm hperm _ ready_default x) y⟩

/-- Witness for C3 at the identity permutation and concrete inputs. -/
theorem keccak_oneShot_and_reset_conformance_witness :
    PermOK (fun s => s) ∧
    (Keccak256.oneShot (fun s => s) Keccak256.default [1] =
        specKeccak (fun s => s) [1] ∧
      Keccak256.oneShot (fun s => s)
        ((Keccak256.finalizeAndReset (fun s => s)
          (Keccak256.update (fun s => s) Keccak256.default [1])).2) [2] =
        specKeccak (fun s => s) [2]) :=
  ⟨fun _ h => h, keccak_oneShot_and_reset_conformance _ (fun _ h => h) [1] [2]⟩

/-- **C6.** The streaming-absorption claim fails on the code: with the
identity permutation, `update([0xaa]); update([0xbb]); finalize_and_reset`
differs from `update([0xaa, 0xbb]); finalize_and_reset`.  The second partial
`update` call absorbs at state position 0 (overwriting the byte absorbed by
the first call) instead of at `offset`. -/
theorem keccak_update_streaming_bug :
    Keccak256.oneShot (fun s => s)
        (Keccak256.update (fun s => s) Keccak256.default [0xaa]) [0xbb] ≠
      Keccak256.oneShot (fun s => s) Keccak256.default [0xaa, 0xbb] := by
  decide

/-! ## Byte reader (`lib/src/reader.rs`)

`Reader` is a cursor over a borrowed byte slice; out-of-range reads are
panics, modelled as `none`. -/

/-- `Reader::read_byte`. -/
def readByte : List Nat → Option (Nat × List Nat)
  | [] => none
  | b :: r => some (b, r)

/-- `Reader::read_next(n)`. -/
def readNext (n : Nat) (l : List Nat) : Option (List Nat × List Nat) :=
  if n ≤ l.length then some (l.take n, l.drop n) else none

/-! ## RLP header encoding and the branch hasher (`lib/src/receipt_trie.rs`) -/

/-- Number of significant big-endian bytes of a `usize` below `2 ^ 64`
(`alloy_rlp::length_of_length(L) - 1` for `L ≥ 56`). -/
def sigBytes (n : Nat) : Nat :=
  if n < 256 then 1
  else if n < 256 ^ 2 then 2
  else if n < 256 ^ 3 then 3
  else if n < 256 ^ 4 then 4
  else if n < 256 ^ 5 then 5
  else if n < 256 ^ 6 then 6
  else if n < 256 ^ 7 then 7
  else 8

/-- The bytes `encode_header` feeds into the hasher: a packed head byte for
payloads up to 55 bytes, otherwise a long head byte followed by the
big-endian payload length. -/
def encodeHeaderBytes (offset payloadLength : Nat) : List Nat :=
  if payloadLength < 56 then [offset + payloadLength]
  else (offset + 55 + sigBytes payloadLength) ::
    natToBe (sigBytes payloadLength) payloadLength

/-- `u16::count_ones` via 16 binary digits. -/
def countOnesAux : Nat → Nat → Nat
  | 0, _ => 0
  | f + 1, n => n % 2 + countOnesAux f (n / 2)

/-- `branch_map.count_ones()` for a 16-bit branch map. -/
def countOnes (bm : Nat) : Nat :=
  countOnesAux 16 bm

/-- Number of set bits of `bm` among positions `start, …, start + cnt - 1`. -/
def setBitsIn (bm start : Nat) : Nat → Nat
  | 0 => 0
  | cnt + 1 => (if bm.testBit start then 1 else 0) + setBitsIn bm (start + 1) cnt

/-- One child slot of `hash_branch`'s sibling loops: the bytes fed to the
hasher for a child position `i` and the remaining proof stream.
`weird = true` reads a 4-byte big-endian length before the child bytes; the
source applies it only in the loop over positions above the incoming index,
never below. -/
def feedChild (weird : Bool) (branchMap i : Nat) (r : List Nat) :
    Option (List Nat × List Nat) :=
  if branchMap.testBit i = false then some ([0x80], r)
  else if weird then
    match readNext 4 r with
    | none => none
    | some (lb, r1) =>
      match readNext (beToNat lb) r1 with
      | none => none
      | some (bytes, r2) =>
        some (encodeHeaderBytes 0x80 (beToNat lb) ++ bytes, r2)
  else
    match readNext 32 r with
    | none => none
    | some (bytes, r1) => some (0xa0 :: bytes, r1)

/-- `hash_branch`'s `for i in lo..lo+cnt` sibling loop. -/
def feedRange (weird : Bool) (branchMap start : Nat) :
    Nat → List Nat → Option (List Nat × List Nat)
  | 0, r => some ([], r)
  | cnt + 1, r =>
    match feedChild weird branchMap start r with
    | none => none
    | some (fed, r1) =>
      match feedRange weird branchMap (start + 1) cnt r1 with
      | none => none
      | some (fedRest, r2) => some (fed ++ fedRest, r2)

/-- `hash_branch` (`receipt_trie.rs`): reads the 2-byte big-endian branch
map, computes the RLP list payload length (`popcount * 32 + 17` in the
normal case, a 4-byte big-endian length read from the proof in the weird
case), then feeds the children — substituting the running root at `index` —
and the empty branch value into the hasher.  Returns the declared payload
length, the byte stream fed to the hasher after the list header, and the
remaining proof bytes; the branch node hash is Keccak-256 of
`encodeHeaderBytes 0xc0 payloadLength ++ fed`. -/
def hashBranchFed (weird : Bool) (index : Nat) (lastRoot proof : List Nat) :
    Option (Nat × List Nat × List Nat) :=
  match readByte proof with
  | none => none
  | some (b0, r0) =>
    match readByte r0 with
    | none => none
    | some (b1, r1) =>
      let branchMap := b0 * 256 + b1
      let step :=
        if weird then
          match readNext 4 r1 with
          | none => none
          | some (lb, r2) => some (beToNat lb, r2)
        else some (countOnes branchMap * 32 + 17, r1)
      match step with
      | none => none
      | some (payloadLength, r2) =>
        match feedRange false branchMap 0 index r2 with
        | none => none
        | some (fedLo, r3) =>
          match feedRange weird branchMap (index + 1) (16 - (index + 1)) r3 with
          | none => none
          | some (fedHi, r4) =>
            some (payloadLength,
              fedLo ++ (0xa0 :: lastRoot) ++ fedHi ++ [0x80], r4)

/-- Modelled from the spec: §4.G's description of the weird-branch variant
as claim C9 reads it — every present non-target child, *including those at
positions below the incoming index*, is preceded by a 4-byte big-endian
length.  Differs from `hashBranchFed` only in the loop below the index. -/
def hashBranchFedClaim (weird : Bool) (index : Nat) (lastRoot proof : List Nat) :
    Option (Nat × List Nat × List Nat) :=
  match readByte proof with
  | none => none
  | some (b0, r0) =>
    match readByte r0 with
    | none => none
    | some (b1, r1) =>
      let branchMap := b0 * 256 + b1
      let step :=
        if weird then
          match readNext 4 r1 with
          | none => none
          | some (lb, r2) => some (beToNat lb, r2)
        else some (countOnes branchMap * 32 + 17, r1)
      match step with
      | none => none
      | some (payloadLength, r2) =>
        match feedRange weird branchMap 0 index r2 with
        | none => none
        | some (fedLo, r3) =>
          match feedRange weird branchMap (index + 1) (16 - (index + 1)) r3 with
          | none => none
          | some (fedHi, r4) =>
            some (payloadLength,
              fedLo ++ (0xa0 :: lastRoot) ++ fedHi ++ [0x80], r4)

/-! ## Trie paths (`lib/src/trie_path.rs`) -/

/-- `TriePath::is_odd`: bit 4 of the hex-prefix flag byte. -/
def triePathIsOdd (p : List Nat) : Bool :=
  Nat.land (p.headD 0) 0x10 != 0

/-- `TriePath::nibbles`: `(self.len() as u8 - 1) * 2 + self.is_odd() as u8`,
computed in wrapping `u8` arithmetic (release-mode semantics). -/
def triePathNibblesU8 (p : List Nat) : Nat :=
  ((p.length % 256 + 255) % 256 * 2 % 256 +
    (if triePathIsOdd p then 1 else 0)) % 256

/-- `TriePath::new`: asserts the slice is nonempty and that the `u8` nibble
count is at most 64; a failed assertion aborts (`none`). -/
def triePathNew (p : List Nat) : Option (List Nat) :=
  if p.length < 1 then none
  else if triePathNibblesU8 p ≤ 64 then some p
  else none

/-- The true (unbounded-arithmetic) nibble count of a hex-prefix path. -/
def trueNibbles (p : List Nat) : Nat :=
  (p.length - 1) * 2 + (if triePathIsOdd p then 1 else 0)

theorem setBitsIn_le (bm : Nat) : ∀ (cnt start : Nat), setBitsIn bm start cnt ≤ cnt := by
  intro cnt
  induction cnt with
  | zero => intro start; simp [setBitsIn]
  | succ m ih =>
    intro start
    simp only [setBitsIn]
    have := ih (start + 1)
    split <;> omega

theorem setBitsIn_split (bm : Nat) :
    ∀ (a start b : Nat), setBitsIn bm start (a + b) =
      setBitsIn bm start a + setBitsIn bm (start + a) b := by
  intro a
  induction a with
  | zero => intro start b; simp [setBitsIn]
  | succ m ih =>
    intro start b
    have h1 : m + 1 + b = (m + b) + 1 := by omega
    rw [h1]
    simp only [setBitsIn, ih (start + 1) b]
    have h2 : start + 1 + m = start + (m + 1) := by omega
    rw [h2]
    omega

theorem setBitsIn_shift (n : Nat) :
    ∀ (f start : Nat), setBitsIn n (start + 1) f = setBitsIn (n / 2) start f := by
  intro f
  induction f with
  | zero => intro start; rfl
  | succ m ih =>
    intro start
    simp only [setBitsIn, Nat.testBit_add_one, ih (start + 1)]

theorem countOnes_eq_setBitsIn (f : Nat) :
    ∀ n, countOnesAux f n = setBitsIn n 0 f := by
  induction f with
  | zero => intro n; rfl
  | succ m ih =>
    intro n
    have hb : (if n.testBit 0 then 1 else 0) = n % 2 := by
      rcases Nat.mod_two_eq_zero_or_one n with h | h <;>
        simp [Nat.testBit_zero, h]
    simp only [countOnesAux, setBitsIn, ih (n / 2), hb]
    rw [← setBitsIn_shift n m 0]

theorem feedChild_false_inv (bm i : Nat) (r fed r1 : List Nat)
    (h : feedChild false bm i r = some (fed, r1)) :
    (bm.testBit i = false ∧ fed = [0x80] ∧ r1 = r) ∨
    (bm.testBit i = true ∧ 32 ≤ r.length ∧
      fed = 0xa0 :: r.take 32 ∧ r1 = r.drop 32) := by
  unfold feedChild at h
  by_cases hb : bm.testBit i = false
  · left
    rw [if_pos hb] at h
    have h' : [0x80] = fed ∧ r = r1 := by
      have h2 := Option.some.inj h
      exact ⟨congrArg Prod.fst h2, congrArg Prod.snd h2⟩
    exact ⟨hb, h'.1.symm, h'.2.symm⟩
  · right
    have hb' : bm.testBit i = true := by
      revert hb
      cases bm.testBit i <;> simp
    rw [if_neg hb, if_neg (show ¬(false = true) by simp)] at h
    unfold readNext at h
    by_cases h32 : 32 ≤ r.length
    · rw [if_pos h32] at h
      have h' : some (0xa0 :: r.take 32, r.drop 32) = some (fed, r1) := h
      have h2 := Option.some.inj h'
      exact ⟨hb', h32, (congrArg Prod.fst h2).symm, (congrArg Prod.snd h2).symm⟩
    · rw [if_neg h32] at h
      have h' : (none : Option (List Nat × List Nat)) = some (fed, r1) := h
      exact Option.noConfusion h'

theorem feedRange_false_spec (bm : Nat) :
    ∀ (cnt start : Nat) (r fed r' : List Nat),
      feedRange false bm start cnt r = some (fed, r') →
      fed.length = 33 * setBitsIn bm start cnt +
          (cnt - setBitsIn bm start cnt) ∧
      r.length = 32 * setBitsIn bm start cnt + r'.length := by
  intro cnt
  induction cnt with
  | zero =>
    intro start r fed r' h
    unfold feedRange at h
    have h2 := Option.some.inj h
    have hfed : fed = ([] : List Nat) := (congrArg Prod.fst h2).symm
    have hr : r' = r := (congrArg Prod.snd h2).symm
    subst hfed hr
    simp [setBitsIn]
  | succ m ih =>
    intro start r fed r' h
    unfold feedRange at h
    cases hc : feedChild false bm start r with
    | none =>
      rw [hc] at h
      exact Option.noConfusion h
    | some pc =>
      obtain ⟨fed0, r1⟩ := pc
      rw [hc] at h
      have h' : (match feedRange false bm (start + 1) m r1 with
          | none => none
          | some (fedRest, r2) => some (fed0 ++ fedRest, r2)) =
          some (fed, r') := h
      clear h
      cases hrest : feedRange false bm (start + 1) m r1 with
      | none =>
        rw [hrest] at h'
        exact Option.noConfusion h'
      | some pr =>
        obtain ⟨fedRest, r2⟩ := pr
        rw [hrest] at h'
        have h2 := Option.some.inj h' 
        have hfed : fed = fed0 ++ fedRest := (congrArg Prod.fst h2).symm
        have hr : r' = r2 := (congrArg Prod.snd h2).symm
        subst hfed
        rw [hr]
        obtain ⟨ihl, ihr⟩ := ih (start + 1) r1 fedRest r2 hrest
        have hsle := setBitsIn_le bm m (start + 1)
        rcases feedChild_false_inv bm start r fed0 r1 hc with
          ⟨hb, hf0, hr1⟩ | ⟨hb, h32, hf0, hr1⟩
        · subst hf0 hr1
          rw [show setBitsIn bm start (m + 1) = setBitsIn bm (start + 1) m
            from by simp [setBitsIn, hb]]
          constructor
          · simp only [List.length_append, List.length_cons, List.length_nil,
              ihl]
            omega
          · exact ihr
        · subst hf0 hr1
          rw [show setBitsIn bm start (m + 1) = 1 + setBitsIn bm (start + 1) m
            from by simp [setBitsIn, hb]]
          rw [List.length_drop] at ihr
          constructor
          · have hmin : (r.take 32).length = 32 := by
              rw [List.length_take]
              omega
            simp only [List.length_append, List.length_cons, hmin, ihl]
            omega
          · omega

/-- **C7.** For every 16-bit branch map whose bit at the incoming child index
is set, the verifier's non-weird branch payload length
`popcount(branch_map) * 32 + 17` equals the exact number of bytes
`hash_branch` feeds into the hasher as the RLP list payload: one byte per
absent child, 33 bytes per present child (including the substituted running
root) and one byte for the empty branch value — the strict Ethereum branch
payload length for such branch shapes, for every branch map, not only when
all sixteen children are present. -/
theorem branch_payload_length_exact (b0 b1 index : Nat)
    (lastRoot r : List Nat) (hidx : index < 16)
    (hbit : (b0 * 256 + b1).testBit index = true)
    (hroot : lastRoot.length = 32) (plen : Nat) (fed rest : List Nat)
    (h : hashBranchFed false index lastRoot (b0 :: b1 :: r) =
      some (plen, fed, rest)) :
    plen = countOnes (b0 * 256 + b1) * 32 + 17 ∧ fed.length = plen := by
  have h' : (match feedRange false (b0 * 256 + b1) 0 index r with
      | none => none
      | some (fedLo, r3) =>
        match feedRange false (b0 * 256 + b1) (index + 1)
            (16 - (index + 1)) r3 with
        | none => none
        | some (fedHi, r4) =>
          some (countOnes (b0 * 256 + b1) * 32 + 17,
            fedLo ++ (0xa0 :: lastRoot) ++ fedHi ++ [0x80], r4)) =
      some (plen, fed, rest) := h
  clear h
  cases hlo : feedRange false (b0 * 256 + b1) 0 index r with
  | none =>
    rw [hlo] at h'
    exact Option.noConfusion h'
  | some plo =>
    obtain ⟨fedLo, r3⟩ := plo
    rw [hlo] at h'
    have h'' : (match feedRange false (b0 * 256 + b1) (index + 1)
        (16 - (index + 1)) r3 with
      | none => none
      | some (fedHi, r4) =>
        some (countOnes (b0 * 256 + b1) * 32 + 17,
          fedLo ++ (0xa0 :: lastRoot) ++ fedHi ++ [0x80], r4)) =
        some (plen, fed, rest) := h'
    clear h'
    cases hhi : feedRange false (b0 * 256 + b1) (index + 1)
        (16 - (index + 1)) r3 with
    | none =>
      rw [hhi] at h''
      exact Option.noConfusion h''
    | some phi =>
      obtain ⟨fedHi, r4⟩ := phi
      rw [hhi] at h''
      have h2 := Option.some.inj h''
      have hplen : plen = countOnes (b0 * 256 + b1) * 32 + 17 :=
        (congrArg Prod.fst h2).symm
      have hfed : fed = fedLo ++ (0xa0 :: lastRoot) ++ fedHi ++ [0x80] :=
        (congrArg (fun t => t.2.1) h2).symm
      obtain ⟨hlol, -⟩ :=
        feedRange_false_spec (b0 * 256 + b1) index 0 r fedLo r3 hlo
      obtain ⟨hhil, -⟩ :=
        feedRange_false_spec (b0 * 256 + b1) (16 - (index + 1)) (index + 1)
          r3 fedHi r4 hhi
      have hc : countOnes (b0 * 256 + b1) =
          setBitsIn (b0 * 256 + b1) 0 16 := countOnes_eq_setBitsIn 16 _
      have hsplit := setBitsIn_split (b0 * 256 + b1) index 0 (16 - index)
      rw [show index + (16 - index) = 16 by omega,
        show 0 + index = index by omega] at hsplit
      have hpeel : setBitsIn (b0 * 256 + b1) index (16 - index) =
          1 + setBitsIn (b0 * 256 + b1) (index + 1) (15 - index) := by
        rw [show 16 - index = (15 - index) + 1 by omega]
        simp [setBitsIn, hbit]
      have hcnt : 16 - (index + 1) = 15 - index := by omega
      rw [hcnt] at hhil
      have hsl := setBitsIn_le (b0 * 256 + b1) index 0
      have hsh := setBitsIn_le (b0 * 256 + b1) (15 - index) (index + 1)
      refine ⟨hplen, ?_⟩
      subst hfed hplen
      simp only [List.length_append, List.length_cons, hroot, hlol, hhil,
        List.length_nil]
      omega

/-- Witness for C7: a branch map with children at nibbles 0 (the incoming
root) and 1 (one transmitted sibling). -/
theorem branch_payload_length_exact_witness :
    (0 : Nat) < 16 ∧ (0 * 256 + 3 : Nat).testBit 0 = true ∧
    (List.replicate 32 (0 : Nat)).length = 32 ∧
    hashBranchFed false 0 (List.replicate 32 0)
        (0 :: 3 :: List.replicate 32 7) =
      some (81, (0xa0 :: List.replicate 32 0) ++
        (0xa0 :: List.replicate 32 7) ++ List.replicate 15 0x80, []) ∧
    (81 = countOnes (0 * 256 + 3) * 32 + 17 ∧
      ((0xa0 :: List.replicate 32 0) ++ (0xa0 :: List.replicate 32 7) ++
        List.replicate 15 0x80).length = 81) :=
  ⟨by decide, by decide, by decide, by decide,
    branch_payload_length_exact 0 3 0 (List.replicate 32 0)
      (List.replicate 32 7) (by decide) (by decide) (by decide) 81
      ((0xa0 :: List.replicate 32 0) ++ (0xa0 :: List.replicate 32 7) ++
        List.replicate 15 0x80) [] (by decide)⟩

/-- **C9 counterexample.** On a weird branch with a present child at nibble
0 below incoming index 1, the verifier (`hashBranchFed`) consumes the next
32 proof bytes raw — no 4-byte length precedes them — while the format the
claim describes (`hashBranchFedClaim`, which length-prefixes present
children below the index too) fails on the very same proof stream. -/
theorem weird_branch_low_prefix_counterexample :
    hashBranchFed true 1 (List.replicate 32 5)
        (0 :: 3 :: 0 :: 0 :: 0 :: 81 :: List.replicate 32 9) =
      some (81, (0xa0 :: List.replicate 32 9) ++
        (0xa0 :: List.replicate 32 5) ++ List.replicate 14 0x80 ++ [0x80],
        []) ∧
    hashBranchFedClaim true 1 (List.replicate 32 5)
        (0 :: 3 :: 0 :: 0 :: 0 :: 81 :: List.replicate 32 9) = none := by
  decide

/-- **C9 amended.** In the weird-branch variant only present children at
positions above the incoming index are read with a 4-byte big-endian length
prefix; every present child below the incoming index is consumed exactly as
in the non-weird case — 32 raw sibling bytes, fed as a 32-byte RLP string,
with no length prefix — so the below-index consumption is 32 bytes per
present child. -/
theorem weird_branch_low_children_raw (b0 b1 l0 l1 l2 l3 index : Nat)
    (lastRoot r : List Nat) (plen : Nat) (fed rest : List Nat)
    (h : hashBranchFed true index lastRoot
      (b0 :: b1 :: l0 :: l1 :: l2 :: l3 :: r) = some (plen, fed, rest)) :
    plen = beToNat [l0, l1, l2, l3] ∧
    ∃ fedLo r3 fedHi,
      feedRange false (b0 * 256 + b1) 0 index r = some (fedLo, r3) ∧
      r.length = 32 * setBitsIn (b0 * 256 + b1) 0 index + r3.length ∧
      fedLo.length = 33 * setBitsIn (b0 * 256 + b1) 0 index +
        (index - setBitsIn (b0 * 256 + b1) 0 index) ∧
      fed = fedLo ++ (0xa0 :: lastRoot) ++ fedHi ++ [0x80] := by
  have hstep : readNext 4 (l0 :: l1 :: l2 :: l3 :: r) =
      some ([l0, l1, l2, l3], r) := by
    unfold readNext
    rw [if_pos (by simp)]
    rfl
  have h1 : hashBranchFed true index lastRoot
      (b0 :: b1 :: l0 :: l1 :: l2 :: l3 :: r) =
      (match (match readNext 4 (l0 :: l1 :: l2 :: l3 :: r) with
          | none => none
          | some (lb, r2) => some (beToNat lb, r2)) with
        | none => none
        | some (payloadLength, r2) =>
          match feedRange false (b0 * 256 + b1) 0 index r2 with
          | none => none
          | some (fedLo, r3) =>
            match feedRange true (b0 * 256 + b1) (index + 1)
                (16 - (index + 1)) r3 with
            | none => none
            | some (fedHi, r4) =>
              some (payloadLength,
                fedLo ++ (0xa0 :: lastRoot) ++ fedHi ++ [0x80], r4)) := rfl
  rw [h1, hstep] at h
  have h' : (match feedRange false (b0 * 256 + b1) 0 index r with
      | none => none
      | some (fedLo, r3) =>
        match feedRange true (b0 * 256 + b1) (index + 1)
            (16 - (index + 1)) r3 with
        | none => none
        | some (fedHi, r4) =>
          some (beToNat [l0, l1, l2, l3],
            fedLo ++ (0xa0 :: lastRoot) ++ fedHi ++ [0x80], r4)) =
      some (plen, fed, rest) := h
  clear h h1
  cases hlo : feedRange false (b0 * 256 + b1) 0 index r with
  | none =>
    rw [hlo] at h'
    exact Option.noConfusion h'
  | some plo =>
    obtain ⟨fedLo, r3⟩ := plo
    rw [hlo] at h'
    have h'' : (match feedRange true (b0 * 256 + b1) (index + 1)
        (16 - (index + 1)) r3 with
      | none => none
      | some (fedHi, r4) =>
        some (beToNat [l0, l1, l2, l3],
          fedLo ++ (0xa0 :: lastRoot) ++ fedHi ++ [0x80], r4)) =
        some (plen, fed, rest) := h'
    clear h'
    cases hhi : feedRange true (b0 * 256 + b1) (index + 1)
        (16 - (index + 1)) r3 with
    | none =>
      rw [hhi] at h''
      exact Option.noConfusion h''
    | some phi =>
      obtain ⟨fedHi, r4⟩ := phi
      rw [hhi] at h''
      have h2 := Option.some.inj h''
      obtain ⟨hlol, hcons⟩ :=
        feedRange_false_spec (b0 * 256 + b1) index 0 r fedLo r3 hlo
      exact ⟨(congrArg Prod.fst h2).symm,
        fedLo, r3, fedHi, rfl, hcons, hlol,
        (congrArg (fun t => t.2.1) h2).symm⟩

/-- Witness for the amended C9 on a concrete weird-branch stream. -/
theorem weird_branch_low_children_raw_witness :
    hashBranchFed true 1 (List.replicate 32 5)
        (0 :: 3 :: 0 :: 0 :: 0 :: 81 :: List.replicate 32 9) =
      some (81, (0xa0 :: List.replicate 32 9) ++
        (0xa0 :: List.replicate 32 5) ++ List.replicate 14 0x80 ++ [0x80],
        []) ∧
    (81 = beToNat [0, 0, 0, 81] ∧
      ∃ fedLo r3 fedHi,
        feedRange false (0 * 256 + 3) 0 1 (List.replicate 32 9) =
          some (fedLo, r3) ∧
        (List.replicate 32 (9 : Nat)).length =
          32 * setBitsIn (0 * 256 + 3) 0 1 + r3.length ∧
        fedLo.length = 33 * setBitsIn (0 * 256 + 3) 0 1 +
          (1 - setBitsIn (0 * 256 + 3) 0 1) ∧
        (0xa0 :: List.replicate 32 9) ++ (0xa0 :: List.replicate 32 5) ++
            List.replicate 14 0x80 ++ [0x80] =
          fedLo ++ (0xa0 :: List.replicate 32 5) ++ fedHi ++ [0x80]) :=
  ⟨by decide,
    weird_branch_low_children_raw 0 3 0 0 0 81 1 (List.replicate 32 5)
      (List.replicate 32 9) 81
      ((0xa0 :: List.replicate 32 9) ++ (0xa0 :: List.replicate 32 5) ++
        List.replicate 14 0x80 ++ [0x80]) [] (by decide)⟩

/-- **C10 counterexample.** A 129-byte path is accepted by `TriePath::new`
— the u8 computation `(len as u8 - 1) * 2` wraps to 0 — although its true
nibble count is 256, far above 64. -/
theorem triePath_new_wrap_counterexample :
    triePathNew (List.replicate 129 0) = some (List.replicate 129 0) ∧
    64 < trueNibbles (List.replicate 129 0) := by
  decide

/-- **C10 amended.** For paths of at most 128 bytes — where the wrapping u8
arithmetic of `nibbles` coincides with exact arithmetic — every path
accepted by `TriePath::new` has true nibble count at most 64. -/
theorem triePathNew_nibble_bound (p q : List Nat) (hlen : p.length ≤ 128)
    (h : triePathNew p = some q) : trueNibbles p ≤ 64 := by
  unfold triePathNew at h
  by_cases h1 : p.length < 1
  · rw [if_pos h1] at h
    exact Option.noConfusion h
  · rw [if_neg h1] at h
    by_cases h2 : triePathNibblesU8 p ≤ 64
    · unfold triePathNibblesU8 at h2
      unfold trueNibbles
      cases ho : triePathIsOdd p
      · simp only [ho] at h2 ⊢
        simp at h2 ⊢
        omega
      · simp only [ho] at h2 ⊢
        simp at h2 ⊢
        omega
    · rw [if_neg h2] at h
      exact Option.noConfusion h

/-- Witness for the amended C10 on a one-byte leaf path. -/
theorem triePathNew_nibble_bound_witness :
    ([0x20] : List Nat).length ≤ 128 ∧ triePathNew [0x20] = some [0x20] ∧
      trueNibbles [0x20] ≤ 64 :=
  ⟨by decide, by decide,
    triePathNew_nibble_bound [0x20] [0x20] (by decide) (by decide)⟩

/-! ## `verify_hash_chain` (`lib/src/lib.rs`)

`verify_hash_chain` uses only a header's `parent_hash` field and its
`hash()` (Keccak-256 of the header's RLP re-encoding, computed by the
external alloy encoder), so a `PartialHeader` is modelled by those two
values; `hashVal` stands for the result of `hash()`. -/

structure PHeader where
  parent_hash : List Nat
  hashVal : List Nat
deriving DecidableEq, Repr

/-- `verify_hash_chain`: every header's `parent_hash` — including the
first — is compared against the running hash; on success the final running
hash is returned. -/
def verify_hash_chain (last_hash : List Nat) :
    List PHeader → Option (List Nat)
  | [] => some last_hash
  | h :: t =>
    if h.parent_hash = last_hash then verify_hash_chain h.hashVal t
    else none

/-- **C8 counterexample.** The first header's `parent_hash` IS compared
against the caller-supplied anchor and does cause a `None` result: a
single-header chain whose first parent hash differs from the anchor fails,
and succeeds once the anchor matches. -/
theorem verify_hash_chain_first_header_checked :
    verify_hash_chain [0] [⟨[1], [2]⟩] = none ∧
    verify_hash_chain [1] [⟨[1], [2]⟩] = some [2] := by
  decide

/-- **C8 amended.** `verify_hash_chain` validates every link including the
first: it returns `some r` exactly when the headers' parent hashes equal
the anchor followed by each predecessor's hash, with `r` the last header's
hash (the anchor for an empty chain). -/
theorem verify_hash_chain_characterization (anchor : List Nat)
    (hs : List PHeader) (res : List Nat) :
    verify_hash_chain anchor hs = some res ↔
      (hs.map PHeader.parent_hash =
          (anchor :: hs.map PHeader.hashVal).dropLast ∧
        res = (hs.map PHeader.hashVal).getLastD anchor) := by
  induction hs generalizing anchor with
  | nil =>
    simp [verify_hash_chain, eq_comm]
  | cons h t ih =>
    by_cases hp : h.parent_hash = anchor
    · rw [show verify_hash_chain anchor (h :: t) =
          verify_hash_chain h.hashVal t from by
        simp only [verify_hash_chain]
        rw [if_pos hp]]
      rw [ih h.hashVal]
      simp only [List.map_cons, List.dropLast_cons₂, List.getLastD_cons]
      constructor
      · rintro ⟨h1, h2⟩
        exact ⟨by rw [hp, h1], h2⟩
      · rintro ⟨h1, h2⟩
        injection h1 with ha hb
        exact ⟨hb, h2⟩
    · rw [show verify_hash_chain anchor (h :: t) = none from by
        simp only [verify_hash_chain]
        rw [if_neg hp]]
      simp only [List.map_cons, List.dropLast_cons₂]
      constructor
      · intro h0
        exact Option.noConfusion h0
      · rintro ⟨h1, -⟩
        injection h1 with ha hb
        exact absurd ha hp

/-- Witness for the amended C8 on a one-header chain with a matching
anchor. -/
theorem verify_hash_chain_characterization_witness :
    verify_hash_chain [0] [⟨[0], [7]⟩] = some [7] :=
  (verify_hash_chain_characterization [0] [⟨[0], [7]⟩] [7]).mpr
    ⟨by decide, by decide⟩

/-! ## Encoded header lens (`lib/src/header_lens.rs`)

The RLP constants `RLP_STR_OFFSET = 0x80`, `RLP_LIST_OFFSET = 0xc0` and
`RLP_MAX_PACKED_LEN = 55` are modelled from the spec §4.B (`lib/src/rlp.rs`
itself is not among the provided sources; `header_lens.rs` imports them). -/

structure HeaderLens where
  encoded : List Nat
  payloadOffset : Nat
deriving DecidableEq, Repr

/-- `EncodedHeaderLens::validate_small_fixed_field::<N>`: expect string head
byte `0x80 + N`, then skip the head byte and `N` content bytes; reading
past the payload aborts. -/
def validateSmallFixedField (n : Nat) (payload : List Nat) :
    Option (List Nat) :=
  match payload with
  | [] => none
  | b :: _ =>
    if b = 0x80 + n then
      if n + 1 ≤ payload.length then some (payload.drop (n + 1)) else none
    else none

/-- `EncodedHeaderLens::read_from`: read the long-list head byte, the
big-endian payload length, carve the encoded header from the reader, and
validate the six fixed-width leading fields. -/
def readHeaderFrom (reader : List Nat) : Option (HeaderLens × List Nat) :=
  match reader with
  | [] => none
  | head :: _ =>
    if head ≤ 0xc0 + 55 then none
    else
      let lengthBytes := head - (0xc0 + 55)
      if 1 + lengthBytes ≤ reader.length then
        let length := beToNat ((reader.drop 1).take lengthBytes)
        let payloadOffset := 1 + lengthBytes
        if payloadOffset + length ≤ reader.length then
          let encoded := reader.take (payloadOffset + length)
          let rest := reader.drop (payloadOffset + length)
          (validateSmallFixedField 32 (encoded.drop payloadOffset)).bind
            fun p1 => (validateSmallFixedField 32 p1).bind
            fun p2 => (validateSmallFixedField 20 p2).bind
            fun p3 => (validateSmallFixedField 32 p3).bind
            fun p4 => (validateSmallFixedField 32 p4).bind
            fun p5 => (validateSmallFixedField 32 p5).map
            fun _ => (⟨encoded, payloadOffset⟩, rest)
        else none
      else none

/-- `EncodedHeaderLens::parent_hash`: 32 bytes at `payload_offset + 1`. -/
def HeaderLens.parentHash (h : HeaderLens) : List Nat :=
  (h.encoded.drop (h.payloadOffset + 1)).take 32

/-- `EncodedHeaderLens::receipts_root`: 32 bytes at
`payload_offset + 33 + 33 + 21 + 33 + 33 + 1`. -/
def HeaderLens.receiptsRoot (h : HeaderLens) : List Nat :=
  (h.encoded.drop (h.payloadOffset + 154)).take 32

/-! ## Payload and the guest reward aggregator
(`lib/src/payload.rs`, `program/src/main.rs`)

`ReceiptEnvelope` is the external alloy typed-receipt sum type; the guest
uses only `logs()[log_index]` and `encode_2718`, so a receipt is modelled
by its log list and the byte string `encode_2718` writes. -/

structure LogM where
  address : List Nat
  data : List Nat
deriving DecidableEq, Repr

structure ReceiptM where
  logs : List LogM
  enc2718 : List Nat
deriving DecidableEq, Repr

structure RewardBlockM where
  block_index : Nat
  proof : List Nat
  receipt : ReceiptM
  log_index : Nat
  fee_entries : Nat
deriving DecidableEq, Repr

structure PayloadM where
  angstrom : List Nat
  headers : List Nat
  reward_blocks : List RewardBlockM
  fee_entries : List Nat
deriving DecidableEq, Repr

/-- Lookup in the guest's `sums: HashMap<Address, U256>`, modelled as an
association list in insertion order. -/
def sumsLookup : List (List Nat × Nat) → List Nat → Option Nat
  | [], _ => none
  | (a, v) :: t, k => if a = k then some v else sumsLookup t k

/-- `*sums.entry(*entry.asset()).or_default() += U256::from(amount)`:
256-bit accumulation into the map, inserting 0 first for a new key. -/
def sumsInsert (m : List (List Nat × Nat)) (k : List Nat) (amount : Nat) :
    List (List Nat × Nat) :=
  match m with
  | [] => [(k, amount % 2 ^ 256)]
  | (a, v) :: t =>
    if a = k then (a, (v + amount) % 2 ^ 256) :: t
    else (a, v) :: sumsInsert t k amount

/-- The per-block fee loop of `validate_and_agg_next_block`: entry `i` of
the 36-byte-aligned slice has its asset at bytes `[0, 20)` and a big-endian
`u128` amount at `[20, 36)`; zero amounts are skipped. -/
def aggEntries : List (List Nat × Nat) → List Nat → Nat →
    List (List Nat × Nat)
  | sums, _, 0 => sums
  | sums, slice, c + 1 =>
    let entry := slice.take 36
    let asset := entry.take 20
    let amount := beToNat (entry.drop 20)
    let sums' := if 0 < amount then sumsInsert sums asset amount else sums
    aggEntries sums' (slice.drop 36) c

/-- `RewardAggregator` state (minus the borrowed payload and scratch
buffer). -/
structure AggState where
  sums : List (List Nat × Nat)
  fee_entry_offset : Nat
  block_index : Nat
  reward_blocks : List RewardBlockM
deriving DecidableEq, Repr

/-- `RewardAggregator::validate_and_agg_next_block`.  The receipts-trie
recomputation (`receipt_trie_root_from_proof(keccak, proof, encoded)`) is
the guest crate's verifier variant over the shared sponge; that variant is
not among the provided sources, so — modelled from the spec §4.H — it is a
parameter `trieRoot` mapping the proof bytes and the receipt's EIP-2718
encoding to a root, leaving the sponge reset.  Every `assert!`/panic is
`none`. -/
def validateAndAggNextBlock (perm : List Nat → List Nat)
    (trieRoot : List Nat → List Nat → List Nat) (payload : PayloadM)
    (st : AggState) (k : Keccak256) (header : HeaderLens) :
    Option (AggState × Keccak256) :=
  match st.reward_blocks with
  | [] => some ({ st with block_index := st.block_index + 1 }, k)
  | rb :: rbs =>
    if rb.block_index = st.block_index then
      match rb.receipt.logs.get? rb.log_index with
      | none => none
      | some log =>
        if log.address = payload.angstrom then
          if (st.fee_entry_offset + rb.fee_entries) * 36 ≤
              payload.fee_entries.length then
            if log.data = (Keccak256.finalizeAndReset perm
                (Keccak256.update perm k ((payload.fee_entries.drop
                  (st.fee_entry_offset * 36)).take
                  (rb.fee_entries * 36)))).1 then
              if trieRoot rb.proof rb.receipt.enc2718 =
                  header.receiptsRoot then
                some ({ st with
                    block_index := st.block_index + 1
                    sums := aggEntries st.sums
                      ((payload.fee_entries.drop
                        (st.fee_entry_offset * 36)).take
                        (rb.fee_entries * 36)) rb.fee_entries
                    fee_entry_offset := st.fee_entry_offset + rb.fee_entries
                    reward_blocks := rbs },
                  (Keccak256.finalizeAndReset perm
                    (Keccak256.update perm k ((payload.fee_entries.drop
                      (st.fee_entry_offset * 36)).take
                      (rb.fee_entries * 36)))).2)
              else none
            else none
          else none
        else none
    else some ({ st with block_index := st.block_index + 1 }, k)

/-- The `while !headers.is_empty()` loop of `validate_payload`: read a
lens, assert the parent link, aggregate rewards, hash the header.  The
fuel only bounds the number of iterations; any fuel at least the reader's
length is exact because each parsed header consumes at least two bytes. -/
def validateLoop (perm : List Nat → List Nat)
    (trieRoot : List Nat → List Nat → List Nat) (payload : PayloadM) :
    Nat → List Nat → List Nat → AggState → Keccak256 →
    Option (List Nat × AggState × Keccak256)
  | _, [], lastHash, st, k => some (lastHash, st, k)
  | 0, _ :: _, _, _, _ => none
  | fuel + 1, b :: rb, lastHash, st, k =>
    match readHeaderFrom (b :: rb) with
    | none => none
    | some (hd, rest) =>
      if lastHash = hd.parentHash then
        match validateAndAggNextBlock perm trieRoot payload st k hd with
        | none => none
        | some sk =>
          let hk := Keccak256.finalizeAndReset perm
            (Keccak256.update perm sk.2 hd.encoded)
          validateLoop perm trieRoot payload fuel rest hk.1 sk.1 hk.2
      else none

/-- `validate_payload` (`program/src/main.rs`): first header fixes
`chain_parent`, the loop checks links and aggregates, the final header
hash is `chain_last`; the committed totals are the aggregator's sums. -/
def validate_payload (perm : List Nat → List Nat)
    (trieRoot : List Nat → List Nat → List Nat) (payload : PayloadM) :
    Option (List Nat × List Nat × List (List Nat × Nat)) :=
  match readHeaderFrom payload.headers with
  | none => none
  | some (h0, rest) =>
    let chainParent := h0.parentHash
    let st0 : AggState := ⟨[], 0, 0, payload.reward_blocks⟩
    match validateAndAggNextBlock perm trieRoot payload st0
        Keccak256.default h0 with
    | none => none
    | some sk =>
      let hk := Keccak256.finalizeAndReset perm
        (Keccak256.update perm sk.2 h0.encoded)
      match validateLoop perm trieRoot payload rest.length rest hk.1
          sk.1 hk.2 with
      | none => none
      | some out => some (chainParent, out.1, out.2.1.sums)

theorem validateSmallFixedField_inv (n : Nat) (p q : List Nat)
    (h : validateSmallFixedField n p = some q) :
    n + 1 ≤ p.length ∧ q = p.drop (n + 1) := by
  match p with
  | [] => exact Option.noConfusion h
  | b :: t =>
    simp only [validateSmallFixedField] at h
    by_cases h1 : b = 0x80 + n
    · rw [if_pos h1] at h
      by_cases h2 : n + 1 ≤ (b :: t).length
      · rw [if_pos h2] at h
        exact ⟨h2, (Option.some.inj h).symm⟩
      · rw [if_neg h2] at h
        exact Option.noConfusion h
    · rw [if_neg h1] at h
      exact Option.noConfusion h

theorem readHeaderFrom_inv (reader : List Nat) (L : HeaderLens)
    (rest : List Nat) (hp : readHeaderFrom reader = some (L, rest)) :
    ∃ head h', reader = head :: h' ∧ ¬head ≤ 0xc0 + 55 ∧
      1 + (head - (0xc0 + 55)) ≤ reader.length ∧
      1 + (head - (0xc0 + 55)) +
          beToNat (h'.take (head - (0xc0 + 55))) ≤ reader.length ∧
      L.encoded = reader.take (1 + (head - (0xc0 + 55)) +
        beToNat (h'.take (head - (0xc0 + 55)))) ∧
      L.payloadOffset = 1 + (head - (0xc0 + 55)) ∧
      rest = reader.drop (1 + (head - (0xc0 + 55)) +
        beToNat (h'.take (head - (0xc0 + 55)))) ∧
      186 ≤ (L.encoded.drop (1 + (head - (0xc0 + 55)))).length := by
  match reader with
  | [] => exact Option.noConfusion hp
  | head :: h' =>
    refine ⟨head, h', rfl, ?_⟩
    simp only [readHeaderFrom] at hp
    by_cases h1 : head ≤ 0xc0 + 55
    · rw [if_pos h1] at hp
      exact Option.noConfusion hp
    · rw [if_neg h1] at hp
      refine ⟨h1, ?_⟩
      by_cases h2 : 1 + (head - (0xc0 + 55)) ≤ (head :: h').length
      · rw [if_pos h2] at hp
        refine ⟨h2, ?_⟩
        have hdrop : (head :: h').drop 1 = h' := rfl
        rw [hdrop] at hp
        by_cases h3 : 1 + (head - (0xc0 + 55)) +
            beToNat (h'.take (head - (0xc0 + 55))) ≤ (head :: h').length
        · rw [if_pos h3] at hp
          refine ⟨h3, ?_⟩
          simp only [Option.bind_eq_some, Option.map_eq_some'] at hp
          obtain ⟨p1, hv1, p2, hv2, p3, hv3, p4, hv4, p5, hv5, p6, hv6,
            heq⟩ := hp
          have hL : L = ⟨(head :: h').take (1 + (head - (0xc0 + 55)) +
              beToNat (h'.take (head - (0xc0 + 55)))),
              1 + (head - (0xc0 + 55))⟩ :=
            (congrArg Prod.fst heq).symm
          have hrest : rest = (head :: h').drop (1 + (head - (0xc0 + 55)) +
              beToNat (h'.take (head - (0xc0 + 55)))) :=
            (congrArg Prod.snd heq).symm
          obtain ⟨hl1, he1⟩ := validateSmallFixedField_inv _ _ _ hv1
          obtain ⟨hl2, he2⟩ := validateSmallFixedField_inv _ _ _ hv2
          obtain ⟨hl3, he3⟩ := validateSmallFixedField_inv _ _ _ hv3
          obtain ⟨hl4, he4⟩ := validateSmallFixedField_inv _ _ _ hv4
          obtain ⟨hl5, he5⟩ := validateSmallFixedField_inv _ _ _ hv5
          obtain ⟨hl6, he6⟩ := validateSmallFixedField_inv _ _ _ hv6
          subst he1 he2 he3 he4 he5
          refine ⟨by rw [hL], by rw [hL], hrest, ?_⟩
          rw [hL]
          simp only [List.length_drop] at hl1 hl2 hl3 hl4 hl5 hl6 ⊢
          omega
        · rw [if_neg h3] at hp
          exact Option.noConfusion hp
      · rw [if_neg h2] at hp
        exact Option.noConfusion hp

theorem readHeaderFrom_consumed (reader : List Nat) (L : HeaderLens)
    (rest : List Nat) (hp : readHeaderFrom reader = some (L, rest)) :
    rest.length + 2 ≤ reader.length := by
  obtain ⟨head, h', hr, h1, h2, h3, -, -, hrest, -⟩ :=
    readHeaderFrom_inv reader L rest hp
  subst hrest
  rw [List.length_drop]
  have : 1 ≤ head - (0xc0 + 55) := by omega
  omega

theorem readHeaderFrom_parentHash_length (reader : List Nat) (L : HeaderLens)
    (rest : List Nat) (hp : readHeaderFrom reader = some (L, rest)) :
    L.parentHash.length = 32 := by
  obtain ⟨head, h', hr, h1, h2, h3, henc, hpo, -, hlen⟩ :=
    readHeaderFrom_inv reader L rest hp
  unfold HeaderLens.parentHash
  rw [List.length_take, List.length_drop]
  rw [List.length_drop] at hlen
  omega

/-- Parsing is prefix-stable: a header that parses exactly consumes itself
and leaves any appended continuation as the rest. -/
theorem readHeaderFrom_prefix (h t : List Nat) (L : HeaderLens)
    (hp : readHeaderFrom h = some (L, [])) :
    readHeaderFrom (h ++ t) = some (L, t) := by
  obtain ⟨head, h', hr, h1, h2, h3, henc, hpo, hrest, -⟩ :=
    readHeaderFrom_inv h L [] hp
  subst hr
  have hfull : (head :: h').length = 1 + (head - (0xc0 + 55)) +
      beToNat (h'.take (head - (0xc0 + 55))) := by
    have := congrArg List.length hrest
    rw [List.length_drop] at this
    simp only [List.length_nil] at this
    omega
  simp only [readHeaderFrom, List.cons_append] at hp ⊢
  rw [if_neg h1] at hp ⊢
  rw [if_pos h2] at hp
  rw [if_pos (show 1 + (head - (0xc0 + 55)) ≤
    (head :: (h' ++ t)).length by simp at h2 ⊢; omega)]
  have hdrop1 : (head :: h').drop 1 = h' := rfl
  have hdrop1' : (head :: (h' ++ t)).drop 1 = h' ++ t := rfl
  rw [hdrop1] at hp
  rw [hdrop1']
  have hlb : head - (0xc0 + 55) ≤ h'.length := by
    simp at h2
    omega
  rw [List.take_append_of_le_length hlb]
  rw [if_pos h3] at hp
  rw [if_pos (show 1 + (head - (0xc0 + 55)) +
      beToNat (h'.take (head - (0xc0 + 55))) ≤
      (head :: (h' ++ t)).length by
    simp only [List.length_cons, List.length_append]
    simp only [List.length_cons] at h3
    omega)]
  have htake : (head :: (h' ++ t)).take (1 + (head - (0xc0 + 55)) +
      beToNat (h'.take (head - (0xc0 + 55)))) = head :: h' := by
    rw [show (head :: (h' ++ t)) = (head :: h') ++ t from rfl,
      List.take_append_of_le_length (le_of_eq hfull.symm), ← hfull,
      List.take_length]
  have htakeH : (head :: h').take (1 + (head - (0xc0 + 55)) +
      beToNat (h'.take (head - (0xc0 + 55)))) = head :: h' := by
    rw [← hfull, List.take_length]
  have hdropT : (head :: (h' ++ t)).drop (1 + (head - (0xc0 + 55)) +
      beToNat (h'.take (head - (0xc0 + 55)))) = t := by
    rw [show (head :: (h' ++ t)) = (head :: h') ++ t from rfl, ← hfull,
      List.drop_left]
  rw [htake, hdropT]
  rw [htakeH] at hp
  simp only [Option.bind_eq_some, Option.map_eq_some'] at hp ⊢
  obtain ⟨p1, hv1, p2, hv2, p3, hv3, p4, hv4, p5, hv5, p6, hv6, heq⟩ := hp
  have hL : L = ⟨head :: h', 1 + (head - (0xc0 + 55))⟩ :=
    (congrArg Prod.fst heq).symm
  exact ⟨p1, hv1, p2, hv2, p3, hv3, p4, hv4, p5, hv5, p6, hv6,
    by rw [hL]⟩

theorem validateAndAgg_skip_nil (perm : List Nat → List Nat)
    (trieRoot : List Nat → List Nat → List Nat) (payload : PayloadM)
    (st : AggState) (k : Keccak256) (header : HeaderLens)
    (h : st.reward_blocks = []) :
    validateAndAggNextBlock perm trieRoot payload st k header =
      some ({ st with block_index := st.block_index + 1 }, k) := by
  unfold validateAndAggNextBlock
  rw [h]

theorem validateAndAgg_skip_cons (perm : List Nat → List Nat)
    (trieRoot : List Nat → List Nat → List Nat) (payload : PayloadM)
    (st : AggState) (k : Keccak256) (header : HeaderLens)
    (rb : RewardBlockM) (rbs : List RewardBlockM)
    (h : st.reward_blocks = rb :: rbs)
    (hne : rb.block_index ≠ st.block_index) :
    validateAndAggNextBlock perm trieRoot payload st k header =
      some ({ st with block_index := st.block_index + 1 }, k) := by
  unfold validateAndAggNextBlock
  rw [h]
  show (if rb.block_index = st.block_index then _ else _) = _
  rw [if_neg hne]

theorem validateAndAgg_inv (perm : List Nat → List Nat)
    (trieRoot : List Nat → List Nat → List Nat) (payload : PayloadM)
    (st : AggState) (k : Keccak256) (header : HeaderLens)
    (st' : AggState) (k' : Keccak256)
    (h : validateAndAggNextBlock perm trieRoot payload st k header =
      some (st', k')) :
    (st' = { st with block_index := st.block_index + 1 } ∧ k' = k ∧
      ∀ rb rbs, st.reward_blocks = rb :: rbs →
        rb.block_index ≠ st.block_index) ∨
    (∃ rb rbs, st.reward_blocks = rb :: rbs ∧
      rb.block_index = st.block_index ∧
      (st.fee_entry_offset + rb.fee_entries) * 36 ≤
        payload.fee_entries.length ∧
      st' = { st with
          block_index := st.block_index + 1
          sums := aggEntries st.sums ((payload.fee_entries.drop
            (st.fee_entry_offset * 36)).take (rb.fee_entries * 36))
            rb.fee_entries
          fee_entry_offset := st.fee_entry_offset + rb.fee_entries
          reward_blocks := rbs } ∧
      k' = (Keccak256.finalizeAndReset perm (Keccak256.update perm k
        ((payload.fee_entries.drop (st.fee_entry_offset * 36)).take
          (rb.fee_entries * 36)))).2) := by
  unfold validateAndAggNextBlock at h
  split at h
  · rename_i heq
    have h2 := Option.some.inj h
    refine Or.inl ⟨(congrArg Prod.fst h2).symm, (congrArg Prod.snd h2).symm,
      fun rb rbs hq => ?_⟩
    rw [heq] at hq
    exact List.noConfusion hq
  · rename_i rb rbs heq
    split at h
    · rename_i hidx
      split at h
      · exact Option.noConfusion h
      · rename_i log hlog
        split at h
        · split at h
          · split at h
            · split at h
              · have h2 := Option.some.inj h
                refine Or.inr ⟨rb, rbs, heq, hidx, by assumption,
                  (congrArg Prod.fst h2).symm, (congrArg Prod.snd h2).symm⟩
              · exact Option.noConfusion h
            · exact Option.noConfusion h
          · exact Option.noConfusion h
        · exact Option.noConfusion h
    · rename_i hidx
      have h2 := Option.some.inj h
      refine Or.inl ⟨(congrArg Prod.fst h2).symm, (congrArg Prod.snd h2).symm,
        fun rb' rbs' hq => ?_⟩
      rw [heq] at hq
      injection hq with e1 e2
      subst e1
      exact hidx

theorem validateAndAgg_ready (perm : List Nat → List Nat)
    (hperm : PermOK perm)
    (trieRoot : List Nat → List Nat → List Nat) (payload : PayloadM)
    (st : AggState) (k : Keccak256) (header : HeaderLens)
    (st' : AggState) (k' : Keccak256) (hk : k.Ready)
    (h : validateAndAggNextBlock perm trieRoot payload st k header =
      some (st', k')) : k'.Ready := by
  rcases validateAndAgg_inv perm trieRoot payload st k header st' k' h with
    ⟨-, hk', -⟩ | ⟨rb, rbs, -, -, -, -, hk'⟩
  · rw [hk']
    exact hk
  · rw [hk']
    exact round_ready perm hperm k hk _

/-! ## Fee entries as (asset, amount) pairs (`lib/src/fee_summary.rs`) -/

/-- `FeeEntry::new`: 20 asset bytes followed by the 16-byte big-endian
amount; a block's committed blob is the concatenation of its entries. -/
def encEntries (es : List (List Nat × Nat)) : List Nat :=
  (es.map (fun e => e.1 ++ natToBe 16 e.2)).flatten

theorem encEntries_length (es : List (List Nat × Nat))
    (hwf : ∀ e ∈ es, e.1.length = 20) :
    (encEntries es).length = 36 * es.length := by
  induction es with
  | nil => rfl
  | cons e t ih =>
    simp only [encEntries, List.map_cons, List.flatten_cons,
      List.length_append, List.length_cons]
    rw [natToBe_length, hwf e (by simp)]
    have := ih (fun e he => hwf e (by simp [he]))
    simp only [encEntries] at this
    rw [this]
    ring

/-- Decoding the packed blob: the guest's per-block fee loop over the
encoded slice is the fold of the entry list. -/
theorem aggEntries_dec (es : List (List Nat × Nat))
    (hwf : ∀ e ∈ es, e.1.length = 20 ∧ e.2 < 2 ^ 128) :
    ∀ s, aggEntries s (encEntries es) es.length =
      es.foldl (fun s e => if 0 < e.2 then sumsInsert s e.1 e.2 else s) s := by
  induction es with
  | nil => intro s; rfl
  | cons e t ih =>
    intro s
    obtain ⟨ha, hv⟩ := hwf e (by simp)
    have hlen : (e.1 ++ natToBe 16 e.2).length = 36 := by
      rw [List.length_append, natToBe_length, ha]
    have henc : encEntries (e :: t) =
        (e.1 ++ natToBe 16 e.2) ++ encEntries t := by
      simp [encEntries]
    simp only [List.length_cons, aggEntries, henc]
    have htake : ((e.1 ++ natToBe 16 e.2) ++ encEntries t).take 36 =
        e.1 ++ natToBe 16 e.2 := by
      rw [← hlen, List.take_left]
    have hdrop : ((e.1 ++ natToBe 16 e.2) ++ encEntries t).drop 36 =
        encEntries t := by
      rw [← hlen, List.drop_left]
    rw [htake, hdrop]
    have hasset : (e.1 ++ natToBe 16 e.2).take 20 = e.1 := by
      rw [← ha, List.take_left]
    have hamount : (e.1 ++ natToBe 16 e.2).drop 20 = natToBe 16 e.2 := by
      rw [← ha, List.drop_left]
    rw [hasset, hamount, beToNat_natToBe 16 e.2 hv]
    rw [ih (fun e he => hwf e (by simp [he]))]
    simp [List.foldl_cons]

theorem sumsLookup_insert (m : List (List Nat × Nat)) (key A : List Nat)
    (v : Nat) :
    sumsLookup (sumsInsert m key v) A =
      if key = A then some (((sumsLookup m A).getD 0 + v) % 2 ^ 256)
      else sumsLookup m A := by
  induction m with
  | nil =>
    by_cases hk : key = A
    · simp [sumsInsert, sumsLookup, hk]
    · simp [sumsInsert, sumsLookup, hk]
  | cons kv t ih =>
    obtain ⟨a, w⟩ := kv
    by_cases hak : a = key
    · subst hak
      by_cases hA : a = A
      · subst hA
        simp [sumsInsert, sumsLookup]
      · simp [sumsInsert, sumsLookup, hA]
    · simp only [sumsInsert, if_neg hak]
      by_cases hA : a = A
      · subst hA
        have hk : ¬key = a := fun hx => hak hx.symm
        simp [sumsLookup, hk]
      · simp [sumsLookup, hA, ih]

/-- Total amount committed for asset `A` by a list of fee entries. -/
def totalAmount (es : List (List Nat × Nat)) (A : List Nat) : Nat :=
  (es.map (fun e => if e.1 = A then e.2 else 0)).sum

/-- Whether some entry for asset `A` has a positive amount. -/
def hasPosB (es : List (List Nat × Nat)) (A : List Nat) : Bool :=
  es.any (fun e => decide (e.1 = A) && decide (0 < e.2))

theorem totalAmount_cons (e : List Nat × Nat) (t : List (List Nat × Nat))
    (A : List Nat) :
    totalAmount (e :: t) A =
      (if e.1 = A then e.2 else 0) + totalAmount t A := by
  simp [totalAmount]

theorem hasPosB_cons (e : List Nat × Nat) (t : List (List Nat × Nat))
    (A : List Nat) :
    hasPosB (e :: t) A =
      ((decide (e.1 = A) && decide (0 < e.2)) || hasPosB t A) := by
  simp [hasPosB]

theorem sumsLookup_bound (m : List (List Nat × Nat)) (A : List Nat) (v : Nat)
    (hm : ∀ kv ∈ m, kv.2 < 2 ^ 256) (hl : sumsLookup m A = some v) :
    v < 2 ^ 256 := by
  induction m with
  | nil => exact Option.noConfusion hl
  | cons aw t ih =>
    obtain ⟨a, w⟩ := aw
    simp only [sumsLookup] at hl
    by_cases hA : a = A
    · rw [if_pos hA] at hl
      rw [← Option.some.inj hl]
      exact hm (a, w) (by simp)
    · rw [if_neg hA] at hl
      exact ih (fun kv h => hm kv (List.mem_cons_of_mem _ h)) hl

theorem sumsInsert_bound (m : List (List Nat × Nat)) (key : List Nat)
    (v : Nat) (hm : ∀ kv ∈ m, kv.2 < 2 ^ 256) :
    ∀ kv ∈ sumsInsert m key v, kv.2 < 2 ^ 256 := by
  induction m with
  | nil =>
    intro kv hkv
    simp only [sumsInsert, List.mem_singleton] at hkv
    subst hkv
    exact Nat.mod_lt _ (by positivity)
  | cons aw t ih =>
    intro kv hkv
    obtain ⟨a, w⟩ := aw
    simp only [sumsInsert] at hkv
    by_cases hak : a = key
    · rw [if_pos hak] at hkv
      rcases List.mem_cons.mp hkv with h1 | h1
      · subst h1
        exact Nat.mod_lt _ (by positivity)
      · exact hm kv (List.mem_cons_of_mem _ h1)
    · rw [if_neg hak] at hkv
      rcases List.mem_cons.mp hkv with h1 | h1
      · subst h1
        exact hm (a, w) (by simp)
      · exact ih (fun kv h => hm kv (List.mem_cons_of_mem _ h)) kv h1

/-- Running the guest's positive-entry fold over a list of decoded entries:
the final per-asset lookup in terms of the committed totals.  A key is
present exactly when the map already held it or some entry for it was
positive; zero-amount entries never insert a key. -/
theorem foldl_pos_insert_lookup (A : List Nat) :
    ∀ (es m : List (List Nat × Nat)), (∀ kv ∈ m, kv.2 < 2 ^ 256) →
      sumsLookup (es.foldl
        (fun s e => if 0 < e.2 then sumsInsert s e.1 e.2 else s) m) A =
      (if hasPosB es A || (sumsLookup m A).isSome then
        some (((sumsLookup m A).getD 0 + totalAmount es A) % 2 ^ 256)
      else none) := by
  intro es
  induction es with
  | nil =>
    intro m hm
    simp only [List.foldl_nil]
    cases hl : sumsLookup m A with
    | none => simp [hasPosB]
    | some v =>
      have hv : v < 2 ^ 256 := sumsLookup_bound m A v hm hl
      simp only [hasPosB, List.any_nil, Option.isSome_some, Bool.or_true,
        eq_self_iff_true, if_true, Option.getD_some, totalAmount,
        List.map_nil, List.sum_nil, Nat.add_zero]
      rw [Nat.mod_eq_of_lt hv]
  | cons e t ih =>
    intro m hm
    simp only [List.foldl_cons]
    by_cases hpos : 0 < e.2
    · rw [if_pos hpos, ih (sumsInsert m e.1 e.2)
        (sumsInsert_bound m e.1 e.2 hm)]
      by_cases hA : e.1 = A
      · have hli : sumsLookup (sumsInsert m e.1 e.2) A =
            some (((sumsLookup m A).getD 0 + e.2) % 2 ^ 256) := by
          rw [sumsLookup_insert, if_pos hA]
        rw [hli]
        rw [show hasPosB (e :: t) A = true by
          simp [hasPosB_cons, hA, hpos]]
        simp only [Option.isSome_some, Bool.or_true, Bool.true_or,
          eq_self_iff_true, if_true, Option.getD_some]
        rw [totalAmount_cons, if_pos hA, Nat.mod_add_mod, Nat.add_assoc]
      · have hli : sumsLookup (sumsInsert m e.1 e.2) A = sumsLookup m A := by
          rw [sumsLookup_insert, if_neg hA]
        rw [hli]
        rw [show hasPosB (e :: t) A = hasPosB t A by
          simp [hasPosB_cons, hA]]
        rw [totalAmount_cons, if_neg hA, Nat.zero_add]
    · have he : e.2 = 0 := by omega
      rw [if_neg hpos, ih m hm]
      rw [show hasPosB (e :: t) A = hasPosB t A by
        simp [hasPosB_cons, he]]
      have h0 : (if e.1 = A then e.2 else 0) = 0 := by
        rw [he]; simp
      rw [totalAmount_cons, h0, Nat.zero_add]

/-- A header that parses with nothing left over is its own encoding. -/
theorem readHeaderFrom_exact (h : List Nat) (L : HeaderLens)
    (hp : readHeaderFrom h = some (L, [])) : L.encoded = h := by
  obtain ⟨head, h', hr, h1, h2, h3, henc, -, hrest, -⟩ :=
    readHeaderFrom_inv h L [] hp
  subst hr
  have hfull : (head :: h').length ≤ 1 + (head - (0xc0 + 55)) +
      beToNat (h'.take (head - (0xc0 + 55))) := by
    have := congrArg List.length hrest
    rw [List.length_drop] at this
    simp only [List.length_nil] at this
    omega
  rw [henc, List.take_of_length_le hfull]

/-- Characterization of the `validate_payload` loop when every remaining
reward block's index is beyond the headers still to be read: the run
succeeds exactly when every parsed header's `parent_hash` matches the
running hash; then the final hash is the last header's digest and only
`block_index` advances; the first broken link aborts the whole run. -/
theorem validateLoop_char (perm : List Nat → List Nat) (hperm : PermOK perm)
    (trieRoot : List Nat → List Nat → List Nat) (payload : PayloadM) :
    ∀ (hs : List (List Nat)) (lenses : List HeaderLens) (fuel : Nat)
      (lastHash : List Nat) (st : AggState) (k : Keccak256),
    List.Forall₂ (fun h L => readHeaderFrom h = some (L, [])) hs lenses →
    hs.flatten.length ≤ fuel → k.Ready →
    (∀ rb ∈ st.reward_blocks, st.block_index + hs.length ≤ rb.block_index) →
    (lenses.map HeaderLens.parentHash =
        (lastHash :: hs.map (specKeccak perm)).dropLast →
      ∃ kF, validateLoop perm trieRoot payload fuel hs.flatten lastHash st k =
        some ((hs.map (specKeccak perm)).getLastD lastHash,
          { st with block_index := st.block_index + hs.length }, kF)) ∧
    (lenses.map HeaderLens.parentHash ≠
        (lastHash :: hs.map (specKeccak perm)).dropLast →
      validateLoop perm trieRoot payload fuel hs.flatten lastHash st k =
        none) := by
  intro hs
  induction hs with
  | nil =>
    intro lenses fuel lastHash st k hf hfuel hk hrb
    cases hf
    refine ⟨fun _ => ⟨k, ?_⟩, fun hne => absurd rfl hne⟩
    have h1 : validateLoop perm trieRoot payload fuel (List.flatten [])
        lastHash st k = some (lastHash, st, k) := by
      cases fuel <;> rfl
    rw [h1]
    rfl
  | cons h t ih =>
    intro lenses fuel lastHash st k hf hfuel hk hrb
    cases hf
    rename_i L Ls hp hft
    have hlen2 : 2 ≤ h.length := by
      have := readHeaderFrom_consumed h L [] hp
      simpa using this
    obtain ⟨f, rfl⟩ : ∃ f, fuel = f + 1 := by
      cases fuel
      · exfalso
        simp only [List.flatten_cons, List.length_append,
          Nat.le_zero] at hfuel
        omega
      · exact ⟨_, rfl⟩
    obtain ⟨b, hb, rfl⟩ : ∃ b hb, h = b :: hb := by
      cases h
      · exact absurd hlen2 (by decide)
      · exact ⟨_, _, rfl⟩
    have hpre' : readHeaderFrom (b :: (hb ++ t.flatten)) =
        some (L, t.flatten) := by
      have := readHeaderFrom_prefix (b :: hb) t.flatten L hp
      rwa [List.cons_append] at this
    have hfuel' : (List.flatten t).length ≤ f := by
      simp only [List.flatten_cons, List.length_append,
        List.length_cons] at hfuel
      omega
    simp only [List.flatten_cons, List.cons_append]
    by_cases hlink : lastHash = L.parentHash
    · have hskip : validateAndAggNextBlock perm trieRoot payload st k L =
          some ({ st with block_index := st.block_index + 1 }, k) := by
        obtain hnil | ⟨rb, rbs, hcons⟩ : st.reward_blocks = [] ∨
            ∃ rb rbs, st.reward_blocks = rb :: rbs := by
          cases st.reward_blocks with
          | nil => exact Or.inl rfl
          | cons a l => exact Or.inr ⟨a, l, rfl⟩
        · exact validateAndAgg_skip_nil perm trieRoot payload st k L hnil
        · refine validateAndAgg_skip_cons perm trieRoot payload st k L rb rbs
            hcons ?_
          have := hrb rb (by rw [hcons]; exact List.mem_cons_self rb rbs)
          simp only [List.length_cons] at this
          omega
      have henc : L.encoded = b :: hb := readHeaderFrom_exact (b :: hb) L hp
      have hdig : (Keccak256.finalizeAndReset perm
          (Keccak256.update perm k L.encoded)).1 =
          specKeccak perm (b :: hb) := by
        rw [henc]
        exact oneShot_spec perm hperm k hk (b :: hb)
      have hready : ((Keccak256.finalizeAndReset perm
          (Keccak256.update perm k L.encoded)).2).Ready :=
        round_ready perm hperm k hk L.encoded
      have hrb' : ∀ rb ∈ ({ st with block_index := st.block_index + 1 } :
          AggState).reward_blocks,
          st.block_index + 1 + t.length ≤ rb.block_index := by
        intro rb hmem
        have := hrb rb hmem
        simp only [List.length_cons] at this
        omega
      obtain ⟨ihpos, ihneg⟩ := ih Ls f (specKeccak perm (b :: hb))
        { st with block_index := st.block_index + 1 }
        ((Keccak256.finalizeAndReset perm
          (Keccak256.update perm k L.encoded)).2) hft hfuel' hready hrb'
      have hstep : validateLoop perm trieRoot payload (f + 1)
          (b :: (hb ++ t.flatten)) lastHash st k =
          validateLoop perm trieRoot payload f t.flatten
            (specKeccak perm (b :: hb))
            { st with block_index := st.block_index + 1 }
            ((Keccak256.finalizeAndReset perm
              (Keccak256.update perm k L.encoded)).2) := by
        simp only [validateLoop]
        rw [hpre']
        show (if lastHash = L.parentHash then _ else none) = _
        rw [if_pos hlink, hskip]
        show validateLoop perm trieRoot payload f t.flatten
            ((Keccak256.finalizeAndReset perm
              (Keccak256.update perm k L.encoded)).1)
            { st with block_index := st.block_index + 1 }
            ((Keccak256.finalizeAndReset perm
              (Keccak256.update perm k L.encoded)).2) = _
        rw [hdig]
      constructor
      · intro hcond
        have hcond' : Ls.map HeaderLens.parentHash =
            (specKeccak perm (b :: hb) ::
              t.map (specKeccak perm)).dropLast := by
          simp only [List.map_cons, List.dropLast_cons₂] at hcond
          injection hcond with h1 h2
        obtain ⟨kF, hloop⟩ := ihpos hcond'
        refine ⟨kF, ?_⟩
        rw [hstep, hloop]
        have e1 : (((b :: hb) :: t).map (specKeccak perm)).getLastD lastHash =
            (t.map (specKeccak perm)).getLastD (specKeccak perm (b :: hb)) := by
          rw [List.map_cons, List.getLastD_cons]
        rw [e1]
        have e2 : st.block_index + 1 + t.length =
            st.block_index + ((b :: hb) :: t : List (List Nat)).length := by
          rw [List.length_cons]
          omega
        rw [e2]
      · intro hcond
        have hcond' : Ls.map HeaderLens.parentHash ≠
            (specKeccak perm (b :: hb) ::
              t.map (specKeccak perm)).dropLast := by
          intro he
          apply hcond
          simp only [List.map_cons, List.dropLast_cons₂]
          rw [he, hlink]
        rw [hstep]
        exact ihneg hcond'
    · have hstep0 : validateLoop perm trieRoot payload (f + 1)
          (b :: (hb ++ t.flatten)) lastHash st k = none := by
        simp only [validateLoop]
        rw [hpre']
        show (if lastHash = L.parentHash then _ else none) = none
        rw [if_neg hlink]
      constructor
      · intro hcond
        exfalso
        apply hlink
        simp only [List.map_cons, List.dropLast_cons₂] at hcond
        injection hcond with h1 h2
        exact h1.symm
      · intro _
        exact hstep0

theorem encEntries_append (a b : List (List Nat × Nat)) :
    encEntries (a ++ b) = encEntries a ++ encEntries b := by
  simp [encEntries]

theorem foldl_blocks_flatten
    (f : List (List Nat × Nat) → (List Nat × Nat) → List (List Nat × Nat)) :
    ∀ (ls : List (List (List Nat × Nat))) (b : List (List Nat × Nat)),
    ls.foldl (fun s es => es.foldl f s) b = ls.flatten.foldl f b := by
  intro ls
  induction ls with
  | nil => intro b; rfl
  | cons es t ih =>
    intro b
    simp only [List.foldl_cons, List.flatten_cons, List.foldl_append]
    exact ih _

/-- Fee accounting along the loop: if every remaining reward block has a
strictly increasing in-range index, the block counts match the committed
entry lists and the unconsumed part of the fee blob is their encoding,
then a successful run folds exactly the per-block positive-entry
insertions over the starting map. -/
theorem validateLoop_sums (perm : List Nat → List Nat)
    (trieRoot : List Nat → List Nat → List Nat) (payload : PayloadM) :
    ∀ (hs : List (List Nat)) (lenses : List HeaderLens)
      (entryLists : List (List (List Nat × Nat))) (fuel : Nat)
      (lastHash hashF : List Nat) (st stF : AggState) (k kF : Keccak256),
    List.Forall₂ (fun h L => readHeaderFrom h = some (L, [])) hs lenses →
    hs.flatten.length ≤ fuel →
    List.Forall₂ (fun rb es => rb.fee_entries = es.length ∧
      ∀ e ∈ es, e.1.length = 20 ∧ e.2 < 2 ^ 128)
      st.reward_blocks entryLists →
    List.Pairwise (fun a b => a.block_index < b.block_index)
      st.reward_blocks →
    (∀ rb ∈ st.reward_blocks, st.block_index ≤ rb.block_index ∧
      rb.block_index < st.block_index + hs.length) →
    payload.fee_entries.drop (st.fee_entry_offset * 36) =
      encEntries entryLists.flatten →
    validateLoop perm trieRoot payload fuel hs.flatten lastHash st k =
      some (hashF, stF, kF) →
    stF.sums = entryLists.foldl
      (fun s es => es.foldl
        (fun s e => if 0 < e.2 then sumsInsert s e.1 e.2 else s) s)
      st.sums := by
  intro hs
  induction hs with
  | nil =>
    intro lenses entryLists fuel lastHash hashF st stF k kF hf hfuel hcnt
      hpair hrange hblob hrun
    have h1 : validateLoop perm trieRoot payload fuel (List.flatten [])
        lastHash st k = some (lastHash, st, k) := by
      cases fuel <;> rfl
    rw [h1] at hrun
    have hstF : st = stF :=
      congrArg (fun p => p.2.1) (Option.some.inj hrun)
    have hrbs : st.reward_blocks = [] := by
      cases hq : st.reward_blocks with
      | nil => rfl
      | cons a l =>
        have := hrange a (by rw [hq]; exact List.mem_cons_self a l)
        simp only [List.length_nil] at this
        omega
    rw [hrbs] at hcnt
    cases hcnt
    rw [← hstF]
    rfl
  | cons h t ih =>
    intro lenses entryLists fuel lastHash hashF st stF k kF hf hfuel hcnt
      hpair hrange hblob hrun
    cases hf
    rename_i L Ls hp hft
    have hlen2 : 2 ≤ h.length := by
      have := readHeaderFrom_consumed h L [] hp
      simpa using this
    obtain ⟨f, rfl⟩ : ∃ f, fuel = f + 1 := by
      cases fuel
      · exfalso
        simp only [List.flatten_cons, List.length_append,
          Nat.le_zero] at hfuel
        omega
      · exact ⟨_, rfl⟩
    obtain ⟨b, hb, rfl⟩ : ∃ b hb, h = b :: hb := by
      cases h
      · exact absurd hlen2 (by decide)
      · exact ⟨_, _, rfl⟩
    have hpre' : readHeaderFrom (b :: (hb ++ t.flatten)) =
        some (L, t.flatten) := by
      have := readHeaderFrom_prefix (b :: hb) t.flatten L hp
      rwa [List.cons_append] at this
    have hfuel' : (List.flatten t).length ≤ f := by
      simp only [List.flatten_cons, List.length_append,
        List.length_cons] at hfuel
      omega
    simp only [List.length_cons] at hrange
    simp only [List.flatten_cons, List.cons_append] at hrun
    have hrun' : (match readHeaderFrom (b :: (hb ++ t.flatten)) with
        | none => none
        | some (hd, rest) =>
          if lastHash = hd.parentHash then
            match validateAndAggNextBlock perm trieRoot payload st k hd with
            | none => none
            | some sk =>
              validateLoop perm trieRoot payload f rest
                ((Keccak256.finalizeAndReset perm
                  (Keccak256.update perm sk.2 hd.encoded)).1) sk.1
                ((Keccak256.finalizeAndReset perm
                  (Keccak256.update perm sk.2 hd.encoded)).2)
          else none) = some (hashF, stF, kF) := hrun
    rw [hpre'] at hrun'
    have hrun2 : (if lastHash = L.parentHash then
        match validateAndAggNextBlock perm trieRoot payload st k L with
        | none => none
        | some sk =>
          validateLoop perm trieRoot payload f t.flatten
            ((Keccak256.finalizeAndReset perm
              (Keccak256.update perm sk.2 L.encoded)).1) sk.1
            ((Keccak256.finalizeAndReset perm
              (Keccak256.update perm sk.2 L.encoded)).2)
      else none) = some (hashF, stF, kF) := hrun'
    by_cases hlink : lastHash = L.parentHash
    · rw [if_pos hlink] at hrun2
      cases hagg : validateAndAggNextBlock perm trieRoot payload st k L with
      | none =>
        rw [hagg] at hrun2
        exact Option.noConfusion hrun2
      | some sk =>
        obtain ⟨st1, k1⟩ := sk
        rw [hagg] at hrun2
        have hrun3 : validateLoop perm trieRoot payload f t.flatten
            ((Keccak256.finalizeAndReset perm
              (Keccak256.update perm k1 L.encoded)).1) st1
            ((Keccak256.finalizeAndReset perm
              (Keccak256.update perm k1 L.encoded)).2) =
            some (hashF, stF, kF) := hrun2
        rcases validateAndAgg_inv perm trieRoot payload st k L st1 k1 hagg with
          ⟨hst1, hk1, hno⟩ | ⟨rb, rbs, hrbs, hidx, hle, hst1, hk1⟩
        · subst hst1
          have hsums := ih Ls entryLists f
            ((Keccak256.finalizeAndReset perm
              (Keccak256.update perm k1 L.encoded)).1) hashF
            { st with block_index := st.block_index + 1 } stF
            ((Keccak256.finalizeAndReset perm
              (Keccak256.update perm k1 L.encoded)).2) kF hft hfuel'
            hcnt hpair ?range hblob hrun3
          case range =>
            intro rb2 hmem
            have hmem' : rb2 ∈ st.reward_blocks := hmem
            show st.block_index + 1 ≤ rb2.block_index ∧
              rb2.block_index < st.block_index + 1 + t.length
            have h1 := hrange rb2 hmem'
            have hlow : st.block_index + 1 ≤ rb2.block_index := by
              cases hq : st.reward_blocks with
              | nil =>
                rw [hq] at hmem'
                exact absurd hmem' (List.not_mem_nil rb2)
              | cons a l =>
                have hane := hno a l hq
                have ha := (hrange a
                  (by rw [hq]; exact List.mem_cons_self a l)).1
                rw [hq] at hmem'
                rcases List.mem_cons.mp hmem' with he | hm
                · subst he
                  omega
                · rw [hq] at hpair
                  have := (List.pairwise_cons.mp hpair).1 rb2 hm
                  omega
            omega
          rw [hsums]
        · subst hst1
          rw [hrbs] at hcnt hpair
          cases hcnt
          rename_i es els hhead htail
          obtain ⟨hcnt1, hwf⟩ := hhead
          have hwf20 : ∀ e ∈ es, e.1.length = 20 :=
            fun e he => (hwf e he).1
          have hslice : (payload.fee_entries.drop
              (st.fee_entry_offset * 36)).take (rb.fee_entries * 36) =
              encEntries es := by
            rw [hblob, List.flatten_cons, encEntries_append]
            rw [show rb.fee_entries * 36 = (encEntries es).length by
              rw [encEntries_length es hwf20, hcnt1]; ring]
            rw [List.take_left]
          have hblob' : payload.fee_entries.drop
              ((st.fee_entry_offset + rb.fee_entries) * 36) =
              encEntries els.flatten := by
            have hdd : payload.fee_entries.drop
                ((st.fee_entry_offset + rb.fee_entries) * 36) =
                (payload.fee_entries.drop
                  (st.fee_entry_offset * 36)).drop (rb.fee_entries * 36) := by
              rw [List.drop_drop]
              congr 1
              ring
            rw [hdd, hblob, List.flatten_cons, encEntries_append]
            rw [show rb.fee_entries * 36 = (encEntries es).length by
              rw [encEntries_length es hwf20, hcnt1]; ring]
            rw [List.drop_left]
          have hpair' := (List.pairwise_cons.mp hpair).2
          have hpairhd := (List.pairwise_cons.mp hpair).1
          have hsums := ih Ls els f
            ((Keccak256.finalizeAndReset perm
              (Keccak256.update perm k1 L.encoded)).1) hashF
            { st with
                block_index := st.block_index + 1
                sums := aggEntries st.sums ((payload.fee_entries.drop
                  (st.fee_entry_offset * 36)).take (rb.fee_entries * 36))
                  rb.fee_entries
                fee_entry_offset := st.fee_entry_offset + rb.fee_entries
                reward_blocks := rbs } stF
            ((Keccak256.finalizeAndReset perm
              (Keccak256.update perm k1 L.encoded)).2) kF hft hfuel'
            htail hpair' ?range2 hblob' hrun3
          case range2 =>
            intro rb2 hmem
            have hmem' : rb2 ∈ rbs := hmem
            show st.block_index + 1 ≤ rb2.block_index ∧
              rb2.block_index < st.block_index + 1 + t.length
            have hmemc : rb2 ∈ st.reward_blocks := by
              rw [hrbs]
              exact List.mem_cons_of_mem rb hmem'
            have h1 := hrange rb2 hmemc
            have h2 := hpairhd rb2 hmem'
            omega
          rw [hsums]
          show els.foldl _ (aggEntries st.sums ((payload.fee_entries.drop
              (st.fee_entry_offset * 36)).take (rb.fee_entries * 36))
              rb.fee_entries) = _
          rw [hslice, hcnt1, aggEntries_dec es hwf st.sums]
          simp only [List.foldl_cons]
    · rw [if_neg hlink] at hrun2
      exact Option.noConfusion hrun2

/-- Every index in a strictly increasing reward-block list is at least any
lower bound on the head's index. -/
theorem pairwise_head_lower (n : Nat) :
    ∀ (rbs : List RewardBlockM),
    List.Pairwise (fun a b => a.block_index < b.block_index) rbs →
    (∀ rb rbs2, rbs = rb :: rbs2 → n ≤ rb.block_index) →
    ∀ rb ∈ rbs, n ≤ rb.block_index := by
  intro rbs hpair hhead rb2 hmem
  cases rbs with
  | nil => exact absurd hmem (List.not_mem_nil rb2)
  | cons a l =>
    have ha := hhead a l rfl
    rcases List.mem_cons.mp hmem with he | hm
    · subst he
      exact ha
    · have := (List.pairwise_cons.mp hpair).1 rb2 hm
      omega

/-- Unfolding `validate_payload` past the first header, given its parse and
the outcome of the first aggregation step. -/
theorem validate_payload_unfold (perm : List Nat → List Nat)
    (trieRoot : List Nat → List Nat → List Nat)
    (angstrom fee h0 : List Nat) (hs : List (List Nat)) (L0 : HeaderLens)
    (rbs : List RewardBlockM) (st1 : AggState) (k1 : Keccak256)
    (hp0 : readHeaderFrom h0 = some (L0, []))
    (hagg : validateAndAggNextBlock perm trieRoot
      ⟨angstrom, h0 ++ hs.flatten, rbs, fee⟩ ⟨[], 0, 0, rbs⟩
      Keccak256.default L0 = some (st1, k1)) :
    validate_payload perm trieRoot ⟨angstrom, h0 ++ hs.flatten, rbs, fee⟩ =
      (match validateLoop perm trieRoot ⟨angstrom, h0 ++ hs.flatten, rbs, fee⟩
          hs.flatten.length hs.flatten
          ((Keccak256.finalizeAndReset perm
            (Keccak256.update perm k1 L0.encoded)).1) st1
          ((Keccak256.finalizeAndReset perm
            (Keccak256.update perm k1 L0.encoded)).2) with
        | none => none
        | some out => some (L0.parentHash, out.1, out.2.1.sums)) := by
  have hparse : readHeaderFrom (h0 ++ hs.flatten) = some (L0, hs.flatten) :=
    readHeaderFrom_prefix h0 hs.flatten L0 hp0
  show (match readHeaderFrom (h0 ++ hs.flatten) with
    | none => none
    | some (hd, rest) =>
      match validateAndAggNextBlock perm trieRoot
          ⟨angstrom, h0 ++ hs.flatten, rbs, fee⟩ ⟨[], 0, 0, rbs⟩
          Keccak256.default hd with
      | none => none
      | some sk =>
        match validateLoop perm trieRoot
            ⟨angstrom, h0 ++ hs.flatten, rbs, fee⟩ rest.length rest
            ((Keccak256.finalizeAndReset perm
              (Keccak256.update perm sk.2 hd.encoded)).1) sk.1
            ((Keccak256.finalizeAndReset perm
              (Keccak256.update perm sk.2 hd.encoded)).2) with
        | none => none
        | some out => some (hd.parentHash, out.1, out.2.1.sums)) = _
  rw [hparse]
  show (match validateAndAggNextBlock perm trieRoot
      ⟨angstrom, h0 ++ hs.flatten, rbs, fee⟩ ⟨[], 0, 0, rbs⟩
      Keccak256.default L0 with
    | none => none
    | some sk =>
      match validateLoop perm trieRoot
          ⟨angstrom, h0 ++ hs.flatten, rbs, fee⟩ hs.flatten.length hs.flatten
          ((Keccak256.finalizeAndReset perm
            (Keccak256.update perm sk.2 L0.encoded)).1) sk.1
          ((Keccak256.finalizeAndReset perm
            (Keccak256.update perm sk.2 L0.encoded)).2) with
      | none => none
      | some out => some (L0.parentHash, out.1, out.2.1.sums)) = _
  rw [hagg]

/-- A minimal well-formed RLP header for concrete runs: long-list head
`0xf8 0xba`, then parent hash 0, ommers hash 0, coinbase 0, state root 0,
transactions root 0 and receipts root `0xcc…cc`. -/
def testHeaderBytes : List Nat :=
  0xf8 :: 0xba :: ([0xa0] ++ List.replicate 32 0 ++ [0xa0] ++
    List.replicate 32 0 ++ [0x94] ++ List.replicate 20 0 ++ [0xa0] ++
    List.replicate 32 0 ++ [0xa0] ++ List.replicate 32 0 ++ [0xa0] ++
    List.replicate 32 0xcc)

/-- A second header whose parent-hash field is the identity-permutation
digest of `testHeaderBytes`, forming a valid two-header chain. -/
def testHeader2 : List Nat :=
  0xf8 :: 0xba :: ([0xa0] ++ specKeccak (fun s => s) testHeaderBytes ++
    [0xa0] ++ List.replicate 32 0 ++ [0x94] ++ List.replicate 20 0 ++
    [0xa0] ++ List.replicate 32 0 ++ [0xa0] ++ List.replicate 32 0 ++
    [0xa0] ++ List.replicate 32 0xdd)

/-- Payload holding one header and one reward block whose `block_index` 5
is at or beyond the number of headers. -/
def testPayloadC5 : PayloadM :=
  ⟨List.replicate 20 0xaa, testHeaderBytes, [⟨5, [], ⟨[], []⟩, 0, 0⟩], []⟩

/-- **C2.** For a non-empty sequence of exactly-parsing RLP headers
`h0 :: hs` concatenated into the payload (no reward blocks): if every
parent link holds — each later lens's parent-hash field equals the digest
of the previous header — then `validate_payload` returns `chain_parent`
equal to `h0`'s parent-hash field and `chain_last` equal to the last
header's digest; and if some parent link is broken, it returns `none`
(the guest aborts and commits nothing). -/
theorem validate_payload_chain (perm : List Nat → List Nat)
    (hperm : PermOK perm) (trieRoot : List Nat → List Nat → List Nat)
    (angstrom fee h0 : List Nat) (hs : List (List Nat))
    (lenses : List HeaderLens) (L0 : HeaderLens)
    (hp0 : readHeaderFrom h0 = some (L0, []))
    (hps : List.Forall₂ (fun h L => readHeaderFrom h = some (L, []))
      hs lenses) :
    (lenses.map HeaderLens.parentHash =
        (specKeccak perm h0 :: hs.map (specKeccak perm)).dropLast →
      validate_payload perm trieRoot ⟨angstrom, h0 ++ hs.flatten, [], fee⟩ =
        some (L0.parentHash,
          (hs.map (specKeccak perm)).getLastD (specKeccak perm h0), [])) ∧
    (lenses.map HeaderLens.parentHash ≠
        (specKeccak perm h0 :: hs.map (specKeccak perm)).dropLast →
      validate_payload perm trieRoot ⟨angstrom, h0 ++ hs.flatten, [], fee⟩ =
        none) := by
  have hagg : validateAndAggNextBlock perm trieRoot
      ⟨angstrom, h0 ++ hs.flatten, [], fee⟩ ⟨[], 0, 0, []⟩
      Keccak256.default L0 =
      some (⟨[], 0, 1, []⟩, Keccak256.default) :=
    validateAndAgg_skip_nil perm trieRoot _ ⟨[], 0, 0, []⟩
      Keccak256.default L0 rfl
  have hunf := validate_payload_unfold perm trieRoot angstrom fee h0 hs L0
    [] ⟨[], 0, 1, []⟩ Keccak256.default hp0 hagg
  have henc : L0.encoded = h0 := readHeaderFrom_exact h0 L0 hp0
  have hdig : (Keccak256.finalizeAndReset perm
      (Keccak256.update perm Keccak256.default L0.encoded)).1 =
      specKeccak perm h0 := by
    rw [henc]
    exact oneShot_spec perm hperm Keccak256.default ready_default h0
  have hready : ((Keccak256.finalizeAndReset perm
      (Keccak256.update perm Keccak256.default L0.encoded)).2).Ready :=
    round_ready perm hperm Keccak256.default ready_default L0.encoded
  rw [hdig] at hunf
  obtain ⟨lpos, lneg⟩ := validateLoop_char perm hperm trieRoot
    ⟨angstrom, h0 ++ hs.flatten, [], fee⟩ hs lenses hs.flatten.length
    (specKeccak perm h0) ⟨[], 0, 1, []⟩
    ((Keccak256.finalizeAndReset perm
      (Keccak256.update perm Keccak256.default L0.encoded)).2)
    hps le_rfl hready (fun rb h => absurd h (List.not_mem_nil rb))
  constructor
  · intro hchain
    obtain ⟨kF, hloop⟩ := lpos hchain
    rw [hloop] at hunf
    exact hunf
  · intro hchain
    rw [lneg hchain] at hunf
    exact hunf

/-- Witness for C2: a concrete two-header chain over the identity
permutation, with the second header's parent field set to the first
header's digest. -/
theorem validate_payload_chain_witness :
    validate_payload (fun s => s) (fun x y => x ++ y)
      ⟨[], testHeaderBytes ++ ([testHeader2] : List (List Nat)).flatten,
        [], []⟩ =
      some ((⟨testHeaderBytes, 2⟩ : HeaderLens).parentHash,
        ([testHeader2].map (specKeccak (fun s => s))).getLastD
          (specKeccak (fun s => s) testHeaderBytes), []) :=
  (validate_payload_chain (fun s => s) (fun _ h => h) (fun x y => x ++ y)
    [] [] testHeaderBytes [testHeader2] [⟨testHeader2, 2⟩]
    ⟨testHeaderBytes, 2⟩ (by decide)
    (List.Forall₂.cons (by decide) List.Forall₂.nil)).1 (by decide)

/-- **C5 counterexample.** A payload whose single reward block carries the
out-of-range `block_index` 5 (the payload has one header, so only index 0
is in range) does not make the guest fail: `next_if` never fires, the
block is silently skipped, and an output with empty sums is committed. -/
theorem reward_index_out_of_range_ignored :
    (∀ rb ∈ testPayloadC5.reward_blocks, 1 ≤ rb.block_index) ∧
    validate_payload (fun s => s) (fun x y => x ++ y) testPayloadC5 =
      some ((testHeaderBytes.drop 3).take 32,
        specKeccak (fun s => s) testHeaderBytes, []) := by
  constructor
  · decide
  · decide

/-- **C5 amended.** `validate_payload` surfaces no error for out-of-range
reward blocks: for any reward-block list whose indices all lie at or
beyond the number of headers, a chain-valid run still succeeds and the
committed sums are empty — the fees of those reward blocks are silently
omitted from the output. -/
theorem validate_payload_ignores_high_reward_blocks
    (perm : List Nat → List Nat) (hperm : PermOK perm)
    (trieRoot : List Nat → List Nat → List Nat)
    (angstrom fee h0 : List Nat) (hs : List (List Nat))
    (lenses : List HeaderLens) (L0 : HeaderLens) (rbs : List RewardBlockM)
    (hp0 : readHeaderFrom h0 = some (L0, []))
    (hps : List.Forall₂ (fun h L => readHeaderFrom h = some (L, []))
      hs lenses)
    (hhigh : ∀ rb ∈ rbs, 1 + hs.length ≤ rb.block_index)
    (hchain : lenses.map HeaderLens.parentHash =
      (specKeccak perm h0 :: hs.map (specKeccak perm)).dropLast) :
    validate_payload perm trieRoot ⟨angstrom, h0 ++ hs.flatten, rbs, fee⟩ =
      some (L0.parentHash,
        (hs.map (specKeccak perm)).getLastD (specKeccak perm h0), []) := by
  have hagg : validateAndAggNextBlock perm trieRoot
      ⟨angstrom, h0 ++ hs.flatten, rbs, fee⟩ ⟨[], 0, 0, rbs⟩
      Keccak256.default L0 =
      some (⟨[], 0, 1, rbs⟩, Keccak256.default) := by
    obtain hnil | ⟨rb, rbs2, hcons⟩ : rbs = [] ∨
        ∃ rb rbs2, rbs = rb :: rbs2 := by
      cases rbs with
      | nil => exact Or.inl rfl
      | cons a l => exact Or.inr ⟨a, l, rfl⟩
    · subst hnil
      exact validateAndAgg_skip_nil perm trieRoot _ ⟨[], 0, 0, []⟩
        Keccak256.default L0 rfl
    · have hne : rb.block_index ≠
          (⟨[], 0, 0, rbs⟩ : AggState).block_index := by
        have := hhigh rb (by rw [hcons]; exact List.mem_cons_self rb rbs2)
        show rb.block_index ≠ 0
        omega
      exact validateAndAgg_skip_cons perm trieRoot _ ⟨[], 0, 0, rbs⟩
        Keccak256.default L0 rb rbs2 hcons hne
  have hunf := validate_payload_unfold perm trieRoot angstrom fee h0 hs L0
    rbs ⟨[], 0, 1, rbs⟩ Keccak256.default hp0 hagg
  have henc : L0.encoded = h0 := readHeaderFrom_exact h0 L0 hp0
  have hdig : (Keccak256.finalizeAndReset perm
      (Keccak256.update perm Keccak256.default L0.encoded)).1 =
      specKeccak perm h0 := by
    rw [henc]
    exact oneShot_spec perm hperm Keccak256.default ready_default h0
  have hready : ((Keccak256.finalizeAndReset perm
      (Keccak256.update perm Keccak256.default L0.encoded)).2).Ready :=
    round_ready perm hperm Keccak256.default ready_default L0.encoded
  rw [hdig] at hunf
  have hrw : ∀ rb ∈ (⟨[], 0, 1, rbs⟩ : AggState).reward_blocks,
      (⟨[], 0, 1, rbs⟩ : AggState).block_index + hs.length ≤
        rb.block_index := by
    intro rb hmem
    show 1 + hs.length ≤ rb.block_index
    exact hhigh rb hmem
  obtain ⟨lpos, -⟩ := validateLoop_char perm hperm trieRoot
    ⟨angstrom, h0 ++ hs.flatten, rbs, fee⟩ hs lenses hs.flatten.length
    (specKeccak perm h0) ⟨[], 0, 1, rbs⟩
    ((Keccak256.finalizeAndReset perm
      (Keccak256.update perm Keccak256.default L0.encoded)).2)
    hps le_rfl hready hrw
  obtain ⟨kF, hloop⟩ := lpos hchain
  rw [hloop] at hunf
  exact hunf

/-- Witness for the amended C5: one header, one reward block with index 5;
the run succeeds and commits empty sums. -/
theorem validate_payload_ignores_high_reward_blocks_witness :
    validate_payload (fun s => s) (fun x y => x ++ y)
      ⟨List.replicate 20 0xaa,
        testHeaderBytes ++ ([] : List (List Nat)).flatten,
        [⟨5, [], ⟨[], []⟩, 0, 0⟩], []⟩ =
      some ((⟨testHeaderBytes, 2⟩ : HeaderLens).parentHash,
        (([] : List (List Nat)).map (specKeccak (fun s => s))).getLastD
          (specKeccak (fun s => s) testHeaderBytes), []) :=
  validate_payload_ignores_high_reward_blocks (fun s => s) (fun _ h => h)
    (fun x y => x ++ y) (List.replicate 20 0xaa) [] testHeaderBytes []
    [] ⟨testHeaderBytes, 2⟩ [⟨5, [], ⟨[], []⟩, 0, 0⟩] (by decide)
    List.Forall₂.nil (by decide) rfl

/-- **C4.** For a payload whose commitments all verify (`validate_payload`
succeeds) with strictly increasing, in-range reward-block indices, block
entry counts matching the committed entry lists and the fee blob equal to
their packed encoding: for every asset `A` the committed sums map holds
exactly the 256-bit sum of the amounts of all entries for `A` across all
reward blocks, and holds no key for an asset all of whose entries have
amount zero — zero amounts never insert a key. -/
theorem reward_sums_exact (perm : List Nat → List Nat)
    (trieRoot : List Nat → List Nat → List Nat)
    (angstrom fee h0 : List Nat) (hs : List (List Nat))
    (lenses : List HeaderLens) (L0 : HeaderLens)
    (rbs : List RewardBlockM)
    (entryLists : List (List (List Nat × Nat)))
    (cp cl : List Nat) (sums : List (List Nat × Nat))
    (hp0 : readHeaderFrom h0 = some (L0, []))
    (hps : List.Forall₂ (fun h L => readHeaderFrom h = some (L, []))
      hs lenses)
    (hcnt : List.Forall₂ (fun rb es => rb.fee_entries = es.length ∧
      ∀ e ∈ es, e.1.length = 20 ∧ e.2 < 2 ^ 128) rbs entryLists)
    (hpair : List.Pairwise (fun a b => a.block_index < b.block_index) rbs)
    (hrange : ∀ rb ∈ rbs, rb.block_index < 1 + hs.length)
    (hfee : fee = encEntries entryLists.flatten)
    (hrun : validate_payload perm trieRoot
      ⟨angstrom, h0 ++ hs.flatten, rbs, fee⟩ = some (cp, cl, sums)) :
    ∀ A, sumsLookup sums A =
      if hasPosB entryLists.flatten A then
        some (totalAmount entryLists.flatten A % 2 ^ 256)
      else none := by
  have hfinal : ∀ A, sumsLookup (entryLists.foldl
      (fun s es => es.foldl
        (fun s e => if 0 < e.2 then sumsInsert s e.1 e.2 else s) s) []) A =
      (if hasPosB entryLists.flatten A then
        some (totalAmount entryLists.flatten A % 2 ^ 256)
      else none) := by
    intro A
    rw [foldl_blocks_flatten]
    rw [foldl_pos_insert_lookup A entryLists.flatten []
      (fun kv h => absurd h (List.not_mem_nil kv))]
    show (if (hasPosB entryLists.flatten A || false) = true then
        some ((0 + totalAmount entryLists.flatten A) % 2 ^ 256)
      else none) = _
    rw [Bool.or_false, Nat.zero_add]
  have hparse : readHeaderFrom (h0 ++ hs.flatten) = some (L0, hs.flatten) :=
    readHeaderFrom_prefix h0 hs.flatten L0 hp0
  have e1 : validate_payload perm trieRoot
      ⟨angstrom, h0 ++ hs.flatten, rbs, fee⟩ =
      (match readHeaderFrom (h0 ++ hs.flatten) with
       | none => none
       | some (hd, rest) =>
         match validateAndAggNextBlock perm trieRoot
             ⟨angstrom, h0 ++ hs.flatten, rbs, fee⟩ ⟨[], 0, 0, rbs⟩
             Keccak256.default hd with
         | none => none
         | some sk =>
           match validateLoop perm trieRoot
               ⟨angstrom, h0 ++ hs.flatten, rbs, fee⟩ rest.length rest
               ((Keccak256.finalizeAndReset perm
                 (Keccak256.update perm sk.2 hd.encoded)).1) sk.1
               ((Keccak256.finalizeAndReset perm
                 (Keccak256.update perm sk.2 hd.encoded)).2) with
           | none => none
           | some out => some (hd.parentHash, out.1, out.2.1.sums)) := rfl
  rw [e1, hparse] at hrun
  have hrunA : (match validateAndAggNextBlock perm trieRoot
      ⟨angstrom, h0 ++ hs.flatten, rbs, fee⟩ ⟨[], 0, 0, rbs⟩
      Keccak256.default L0 with
    | none => none
    | some sk =>
      match validateLoop perm trieRoot
          ⟨angstrom, h0 ++ hs.flatten, rbs, fee⟩ hs.flatten.length
          hs.flatten
          ((Keccak256.finalizeAndReset perm
            (Keccak256.update perm sk.2 L0.encoded)).1) sk.1
          ((Keccak256.finalizeAndReset perm
            (Keccak256.update perm sk.2 L0.encoded)).2) with
      | none => none
      | some out => some (L0.parentHash, out.1, out.2.1.sums)) =
      some (cp, cl, sums) := hrun
  cases hagg : validateAndAggNextBlock perm trieRoot
      ⟨angstrom, h0 ++ hs.flatten, rbs, fee⟩ ⟨[], 0, 0, rbs⟩
      Keccak256.default L0 with
  | none =>
    rw [hagg] at hrunA
    exact Option.noConfusion hrunA
  | some sk =>
    obtain ⟨st1, k1⟩ := sk
    rw [hagg] at hrunA
    have hrunB : (match validateLoop perm trieRoot
        ⟨angstrom, h0 ++ hs.flatten, rbs, fee⟩ hs.flatten.length hs.flatten
        ((Keccak256.finalizeAndReset perm
          (Keccak256.update perm k1 L0.encoded)).1) st1
        ((Keccak256.finalizeAndReset perm
          (Keccak256.update perm k1 L0.encoded)).2) with
      | none => none
      | some out => some (L0.parentHash, out.1, out.2.1.sums)) =
        some (cp, cl, sums) := hrunA
    cases hloop : validateLoop perm trieRoot
        ⟨angstrom, h0 ++ hs.flatten, rbs, fee⟩ hs.flatten.length hs.flatten
        ((Keccak256.finalizeAndReset perm
          (Keccak256.update perm k1 L0.encoded)).1) st1
        ((Keccak256.finalizeAndReset perm
          (Keccak256.update perm k1 L0.encoded)).2) with
    | none =>
      rw [hloop] at hrunB
      exact Option.noConfusion hrunB
    | some out =>
      obtain ⟨hashF, stF, kF⟩ := out
      rw [hloop] at hrunB
      have hsum_eq : sums = stF.sums :=
        (congrArg (fun p => p.2.2) (Option.some.inj hrunB)).symm
      rcases validateAndAgg_inv perm trieRoot _ _ _ _ _ _ hagg with
        ⟨hst1, hk1, hno⟩ | ⟨rb0, rbs2, hrbs, hidx, hle, hst1, hk1⟩
      · subst hst1
        have hlow : ∀ rb ∈ rbs, 1 ≤ rb.block_index := by
          refine pairwise_head_lower 1 rbs hpair ?_
          intro rb rbs2 hq
          have hne : rb.block_index ≠ 0 := hno rb rbs2 hq
          omega
        have hsums := validateLoop_sums perm trieRoot
          ⟨angstrom, h0 ++ hs.flatten, rbs, fee⟩ hs lenses entryLists
          hs.flatten.length _ hashF _ stF _ kF hps le_rfl
          hcnt hpair ?rangeg ?blobg hloop
        case rangeg =>
          intro rb hmem
          have hmem' : rb ∈ rbs := hmem
          show 0 + 1 ≤ rb.block_index ∧
            rb.block_index < 0 + 1 + hs.length
          have h1 := hlow rb hmem'
          have h2 := hrange rb hmem'
          omega
        case blobg =>
          show fee.drop (0 * 36) = encEntries entryLists.flatten
          rw [Nat.zero_mul, List.drop_zero]
          exact hfee
        have hsums' : stF.sums = entryLists.foldl
            (fun s es => es.foldl
              (fun s e => if 0 < e.2 then sumsInsert s e.1 e.2 else s) s)
            [] := hsums
        intro A
        rw [hsum_eq, hsums']
        exact hfinal A
      · have hrbs' : rbs = rb0 :: rbs2 := hrbs
        subst hrbs'
        subst hst1
        have hidx' : rb0.block_index = 0 := hidx
        cases hcnt
        rename_i es els hhead htail
        obtain ⟨hcnt1, hwf⟩ := hhead
        have hwf20 : ∀ e ∈ es, e.1.length = 20 := fun e he => (hwf e he).1
        have hslice : (fee.drop (0 * 36)).take (rb0.fee_entries * 36) =
            encEntries es := by
          rw [Nat.zero_mul, List.drop_zero, hfee, List.flatten_cons,
            encEntries_append]
          rw [show rb0.fee_entries * 36 = (encEntries es).length by
            rw [encEntries_length es hwf20, hcnt1]; ring]
          rw [List.take_left]
        have hpairt := (List.pairwise_cons.mp hpair).2
        have hpairhd := (List.pairwise_cons.mp hpair).1
        have hsums := validateLoop_sums perm trieRoot
          ⟨angstrom, h0 ++ hs.flatten, rb0 :: rbs2, fee⟩ hs lenses els
          hs.flatten.length _ hashF _ stF _ kF hps le_rfl
          htail hpairt ?rangeh ?blobh hloop
        case rangeh =>
          intro rb hmem
          have hmem' : rb ∈ rbs2 := hmem
          show 0 + 1 ≤ rb.block_index ∧
            rb.block_index < 0 + 1 + hs.length
          have h1 := hpairhd rb hmem'
          have h2 := hrange rb (List.mem_cons_of_mem rb0 hmem')
          omega
        case blobh =>
          show fee.drop ((0 + rb0.fee_entries) * 36) =
            encEntries els.flatten
          rw [hfee, List.flatten_cons, encEntries_append]
          rw [show (0 + rb0.fee_entries) * 36 = (encEntries es).length by
            rw [encEntries_length es hwf20, hcnt1]; ring]
          rw [List.drop_left]
        have hsums' : stF.sums = els.foldl
            (fun s es => es.foldl
              (fun s e => if 0 < e.2 then sumsInsert s e.1 e.2 else s) s)
            (aggEntries [] ((fee.drop (0 * 36)).take
              (rb0.fee_entries * 36)) rb0.fee_entries) := hsums
        rw [hslice, hcnt1, aggEntries_dec es hwf []] at hsums'
        intro A
        rw [hsum_eq, hsums']
        have hfold : els.foldl
            (fun s es => es.foldl
              (fun s e => if 0 < e.2 then sumsInsert s e.1 e.2 else s) s)
            (es.foldl
              (fun s e => if 0 < e.2 then sumsInsert s e.1 e.2 else s) []) =
            (es :: els).foldl
            (fun s es => es.foldl
              (fun s e => if 0 < e.2 then sumsInsert s e.1 e.2 else s) s)
            [] := by
          simp only [List.foldl_cons]
        rw [hfold]
        exact hfinal A

/-- Test asset address for the C4 run. -/
def assetA : List Nat := List.replicate 20 0x11

/-- The digest the C4 test reward log must carry: the shared sponge (under
the identity permutation) applied to the single committed fee entry. -/
def feeDigestC4 : List Nat :=
  Keccak256.oneShot (fun s => s) Keccak256.default (encEntries [(assetA, 5)])

/-- Witness for C4: a one-header payload whose reward block at index 0 is
consumed — the log carries the fee digest, the constant trie root matches
the header's receipts root — and the committed sums hold the single
positive entry. -/
theorem reward_sums_exact_witness :
    sumsLookup [(assetA, 5)] assetA =
      if hasPosB ([[(assetA, 5)]] :
          List (List (List Nat × Nat))).flatten assetA then
        some (totalAmount ([[(assetA, 5)]] :
          List (List (List Nat × Nat))).flatten assetA % 2 ^ 256)
      else none :=
  reward_sums_exact (fun s => s) (fun x y => List.replicate 32 0xcc)
    (List.replicate 20 0xaa) (encEntries [(assetA, 5)]) testHeaderBytes []
    [] ⟨testHeaderBytes, 2⟩
    [⟨0, [], ⟨[⟨List.replicate 20 0xaa, feeDigestC4⟩], []⟩, 0, 1⟩]
    [[(assetA, 5)]] (List.replicate 32 0)
    (specKeccak (fun s => s) testHeaderBytes) [(assetA, 5)]
    (by decide) List.Forall₂.nil
    (List.Forall₂.cons ⟨rfl, by decide⟩ List.Forall₂.nil)
    (List.pairwise_singleton _ _) (by decide) rfl (by decide) assetA
